import Mathlib

/-!
Verification of the log-data-analyzer ingestion and statistics core.

The development shallowly embeds the TypeScript source:
* numeric cell values are modelled as exact rationals (`ℚ`); JavaScript
  float64 rounding is abstracted away,
* instants (`Date` values) are modelled as integer milliseconds since the
  epoch in local time; both timestamp branches of the source construct
  local-time instants, so fixing the local offset to zero preserves all
  equalities and orderings between parsed instants,
* JavaScript `Record<string, T>` objects are modelled as association lists
  with insertion-order preserving update (`setR`) and first-match lookup
  (`getR`), matching JS property semantics,
* fallible operations (`parseInt`, `parseFloat`, `new Date`, the file
  parser) return `Option`/`Except` instead of `NaN`/exceptions.
-/

/- Restore kernel reducibility of the rational-number operations so that
concrete runs of the embedded code can be checked by `decide`. -/
attribute [local semireducible] Rat.add Rat.mul Rat.inv Rat.sub

namespace LogData

/-! ### JavaScript string primitives -/

/-- ASCII whitespace, the fragment of the JS `\s` class exercised here. -/
def isWs (c : Char) : Bool :=
  c == ' ' || c == '\t' || c == '\n' || c == '\r' || c == '\x0b' || c == '\x0c'

/-- Model of JS `String.prototype.trim`. -/
def jsTrim (s : String) : String :=
  ⟨((s.data.dropWhile isWs).reverse.dropWhile isWs).reverse⟩

/-- Splitting on separator characters, keeping empty fields. -/
def splitChAux (p : Char → Bool) (cur : List Char) : List Char → List (List Char)
  | [] => [cur.reverse]
  | c :: cs => if p c then cur.reverse :: splitChAux p [] cs else splitChAux p (c :: cur) cs

/-- Split on separator characters, keeping empty fields, as JS
`split(...)` does (`''.split(d) = ['']`). -/
def splitP (p : Char → Bool) (s : String) : List String :=
  (splitChAux p [] s.data).map (fun l => ⟨l⟩)

/-- Split on a single delimiter character. -/
def splitC (delim : Char) (s : String) : List String :=
  splitP (fun ch => ch == delim) s

/-- Model of JS `includes(c)` for a single character. -/
def strContains (s : String) (c : Char) : Bool :=
  s.data.any (fun x => x == c)

/-- Model of JS `startsWith`. -/
def strStarts (s pre : String) : Bool :=
  pre.data.isPrefixOf s.data

/-- Tokens of a character list separated by whitespace runs. -/
def tokenizeWs : List Char → List Char → List (List Char)
  | cur, [] => if cur.isEmpty then [] else [cur.reverse]
  | cur, c :: cs =>
    if isWs c then
      if cur.isEmpty then tokenizeWs [] cs else cur.reverse :: tokenizeWs [] cs
    else tokenizeWs (c :: cur) cs

/-- Model of JS `split(/\s+/)` on an already-trimmed string: the empty
string yields `[""]`, otherwise the whitespace-separated tokens. -/
def splitWsJs (s : String) : List String :=
  if s.data.isEmpty then [""] else (tokenizeWs [] s.data).map (fun l => ⟨l⟩)

/-- Value of a list of decimal digit characters. -/
def digitsToNat (l : List Char) : Nat :=
  l.foldl (fun a c => a * 10 + (c.toNat - 48)) 0

def isHexDigit (c : Char) : Bool :=
  c.isDigit || ('a' ≤ c && c ≤ 'f') || ('A' ≤ c && c ≤ 'F')

def hexVal (c : Char) : Nat :=
  if c.isDigit then c.toNat - 48
  else if 'a' ≤ c && c ≤ 'f' then c.toNat - 87
  else c.toNat - 55

def hexDigitsToNat (l : List Char) : Nat :=
  l.foldl (fun a c => a * 16 + hexVal c) 0

/-- Model of JS `parseInt(s)` (radix unspecified): skip leading whitespace,
optional sign, a `0x`/`0X` run of hex digits or a run of decimal digits;
`none` models `NaN`. Trailing junk is ignored. -/
def jsParseInt (s : String) : Option Int :=
  let l := s.data.dropWhile isWs
  let sl : Int × List Char :=
    match l with
    | '-' :: r => (-1, r)
    | '+' :: r => (1, r)
    | _ => (1, l)
  match sl.2 with
  | '0' :: x :: r =>
    if x == 'x' || x == 'X' then
      let ds := r.takeWhile isHexDigit
      if ds.isEmpty then none else some (sl.1 * hexDigitsToNat ds)
    else
      some (sl.1 * digitsToNat (('0' :: x :: r).takeWhile Char.isDigit))
  | _ =>
    let ds := sl.2.takeWhile Char.isDigit
    if ds.isEmpty then none else some (sl.1 * digitsToNat ds)

/-- Model of JS `parseFloat(s)` over finite decimal literals: skip leading
whitespace, optional sign, digits, optional `.digits`, optional exponent;
`none` models `NaN`. The `Infinity` literal is outside the model's scope. -/
def jsParseFloat (s : String) : Option ℚ :=
  let l := s.data.dropWhile isWs
  let sl : ℚ × List Char :=
    match l with
    | '-' :: r => (-1, r)
    | '+' :: r => (1, r)
    | _ => (1, l)
  let ip := sl.2.takeWhile Char.isDigit
  let r1 := sl.2.drop ip.length
  let fr : List Char × List Char :=
    match r1 with
    | '.' :: t => (t.takeWhile Char.isDigit, t.drop (t.takeWhile Char.isDigit).length)
    | _ => ([], r1)
  if ip.isEmpty && fr.1.isEmpty then none
  else
    let mant : ℚ := (digitsToNat ip : ℚ) + (digitsToNat fr.1 : ℚ) / (10 : ℚ) ^ fr.1.length
    match fr.2 with
    | e :: t =>
      if e == 'e' || e == 'E' then
        let se : Bool × List Char :=
          match t with
          | '-' :: u => (true, u)
          | '+' :: u => (false, u)
          | _ => (false, t)
        let ed := se.2.takeWhile Char.isDigit
        if ed.isEmpty then some (sl.1 * mant)
        else if se.1 then some (sl.1 * mant / (10 : ℚ) ^ digitsToNat ed)
        else some (sl.1 * mant * (10 : ℚ) ^ digitsToNat ed)
      else some (sl.1 * mant)
    | [] => some (sl.1 * mant)

/-! ### Calendar arithmetic (proleptic Gregorian, as ECMAScript uses) -/

/-- Day number of the civil date `y-m-d` (month 1-based) relative to
1970-01-01, linear in `d`, matching ECMAScript `MakeDay`. -/
def daysFromCivil (y m d : Int) : Int :=
  let y2 := if m ≤ 2 then y - 1 else y
  let era := Int.fdiv y2 400
  let yoe := y2 - era * 400
  let mShift := if 2 < m then m - 3 else m + 9
  let doy := Int.fdiv (153 * mShift + 2) 5 + d - 1
  let doe := yoe * 365 + Int.fdiv yoe 4 - Int.fdiv yoe 100 + doy
  era * 146097 + doe - 719468

/-- Milliseconds since the epoch of a civil date-time (month 1-based). -/
def msOfCivil (y m d hh mi ss : Int) : Int :=
  86400000 * daysFromCivil y m d + 3600000 * hh + 60000 * mi + 1000 * ss

/-- Model of `new Date(year, month, day, hour, minute, second).getTime()`
(month 0-based): two-digit years map to 1900+y, out-of-range fields
normalize linearly, exactly as ECMAScript `MakeDay`/`MakeTime` do. -/
def jsMakeDate (y mon d hh mi ss : Int) : Int :=
  let yy := if 0 ≤ y ∧ y ≤ 99 then 1900 + y else y
  let ym := yy + Int.fdiv mon 12
  let mn := Int.emod mon 12
  msOfCivil ym (mn + 1) d hh mi ss

/-- ECMAScript time values are valid iff within ±8.64e15 ms of the epoch. -/
def validTime (t : Int) : Bool := t.natAbs ≤ 8640000000000000

def isLeapYear (y : Int) : Bool :=
  (Int.emod y 4 == 0 && Int.emod y 100 != 0) || Int.emod y 400 == 0

def daysInMonth (y m : Int) : Int :=
  if m == 2 then (if isLeapYear y then 29 else 28)
  else if m == 4 || m == 6 || m == 9 || m == 11 then 30
  else 31

def digit2 (a b : Char) : Int := ((a.toNat - 48) * 10 + (b.toNat - 48) : Nat)

/-- Model of the JS `new Date(string)` constructor restricted to the
ISO-like `YYYY-MM-DD HH:MM:SS` shape — the only shape the ISO branch of
`parseTimestamp` relies on. Field-wise out-of-range strings and all other
shapes are modelled as invalid (`none`). The instant is local time. -/
def jsDateParse (s : String) : Option Int :=
  match s.data with
  | [y1, y2, y3, y4, h1, mo1, mo2, h2, d1, d2, sp, hh1, hh2, c1, mi1, mi2, c2, ss1, ss2] =>
    if y1.isDigit && y2.isDigit && y3.isDigit && y4.isDigit &&
       h1 == '-' && mo1.isDigit && mo2.isDigit && h2 == '-' &&
       d1.isDigit && d2.isDigit && sp == ' ' &&
       hh1.isDigit && hh2.isDigit && c1 == ':' && mi1.isDigit && mi2.isDigit &&
       c2 == ':' && ss1.isDigit && ss2.isDigit then
      let y : Int := (digitsToNat [y1, y2, y3, y4] : Nat)
      let mo := digit2 mo1 mo2
      let d := digit2 d1 d2
      let hh := digit2 hh1 hh2
      let mi := digit2 mi1 mi2
      let ss := digit2 ss1 ss2
      if 1 ≤ mo ∧ mo ≤ 12 ∧ 1 ≤ d ∧ d ≤ daysInMonth y mo ∧ hh ≤ 23 ∧ mi ≤ 59 ∧ ss ≤ 59 then
        some (msOfCivil y mo d hh mi ss)
      else none
    else none
  | _ => none

/-! ### Timestamp parsing (`parseTimestamp`, src/unnamed/part_002 lines 82-138) -/

/-- `replace(/^"?/, '').replace(/"?$/, '')`: strip at most one leading and
one trailing double quote. -/
def stripEdgeQuotes (s : String) : String :=
  let l := match s.data with
    | '"' :: r => r
    | l => l
  match l.reverse with
  | '"' :: r => ⟨r.reverse⟩
  | _ => ⟨l⟩

def cleanTs (s : String) : String := jsTrim (stripEdgeQuotes s)

def splitDateSep (s : String) : List String :=
  splitP (fun ch => ch == '/' || ch == '-') s

def splitTimeSep (s : String) : List String :=
  splitP (fun ch => ch == '.' || ch == ':') s

/-- The time-and-field stage of the legacy branch: `timeParts[i] || 0`
coerces `NaN` (and a missing third field) to 0; a `NaN` day/month/year
makes the constructed date invalid, hence `none`. -/
def legacyParseTime (p0 p1 p2 timeStr : String) : Option Int :=
  let timeParts := (splitTimeSep timeStr).map jsParseInt
  if timeParts.length < 2 then none
  else
    let hour := (timeParts.getD 0 none).getD 0
    let minute := (timeParts.getD 1 none).getD 0
    let second := (timeParts.getD 2 none).getD 0
    match jsParseInt p0, jsParseInt p1, jsParseInt p2 with
    | some day, some mon, some year =>
      let t := jsMakeDate year (mon - 1) day hour minute second
      if validTime t then some t else none
    | _, _, _ => none

/-- The date-token stage of the legacy branch: the date token must split
on `/` or `-` into exactly 3 fields. -/
def legacyParseDateTime (dateStr timeStr : String) : Option Int :=
  match splitDateSep dateStr with
  | [p0, p1, p2] => legacyParseTime p0 p1 p2 timeStr
  | _ => none

/-- The legacy `DD/MM/YYYY HH.MM[.SS]` branch of `parseTimestamp`, applied
to the already-cleaned string: the string must split on whitespace into
exactly two tokens. -/
def legacyParse (c : String) : Option Int :=
  match splitWsJs c with
  | [dateStr, timeStr] => legacyParseDateTime dateStr timeStr
  | _ => none

/-- `parseTimestamp` (src/unnamed/part_002 lines 82-138): strip surrounding
quotes and trim; try the ISO branch when the string contains `-` and has
length ≥ 19; otherwise (or when the constructor rejects) fall back to the
legacy shape. -/
def parseTimestamp (s : String) : Option Int :=
  let c := cleanTs s
  if strContains c '-' ∧ 19 ≤ c.length then
    match jsDateParse c with
    | some t => some t
    | none => legacyParse c
  else legacyParse c

/-! ### Value sanitizer (`cleanValue`, src/unnamed/part_002 lines 63-80) -/

/-- `replace(/^=/, '')`: strip one leading `=`. -/
def stripLeadingEq (s : String) : String :=
  match s.data with
  | '=' :: r => ⟨r⟩
  | _ => s

/-- `replace(/"/g, '')`: remove every double quote. -/
def removeQuotes (s : String) : String :=
  ⟨s.data.filter (fun ch => ch != '"')⟩

/-- `cleanValue` (src/unnamed/part_002 lines 63-80). -/
def cleanValue (v : String) : Option ℚ :=
  let cleaned := jsTrim (removeQuotes (stripLeadingEq v))
  if cleaned = "" ∨ cleaned = "null" ∨ cleaned = "undefined" then none
  else jsParseFloat cleaned

/-! ### Record maps (JS `Record<string, T>` objects) -/

/-- Association list with JS object semantics. -/
abbrev RMap (α : Type) := List (String × α)

/-- Property read: first entry with the key. -/
def getR {α : Type} : RMap α → String → Option α
  | [], _ => none
  | p :: m, k => if p.1 = k then some p.2 else getR m k

/-- Property write: update in place when the key exists (JS keeps the
original insertion position), append otherwise. -/
def setR {α : Type} : RMap α → String → α → RMap α
  | [], k, v => [(k, v)]
  | p :: m, k, v => if p.1 = k then (k, v) :: m else p :: setR m k v

/-- Property delete. -/
def delR {α : Type} : RMap α → String → RMap α
  | [], _ => []
  | p :: m, k => if p.1 = k then delR m k else p :: delR m k

/-! ### The tabular file parser (`parseDataFile`, src/unnamed/part_002 lines 140-299) -/

structure DataPoint where
  datetime : Int
  value : Option ℚ
deriving DecidableEq, Repr

/-- The canonical dataset; the source field `variables` is named `series`
here because `variables` is a reserved word in Lean. -/
structure Dataset where
  fileName : String
  headers : List String
  series : RMap (List DataPoint)
  dataCount : Nat
  colors : RMap String
deriving DecidableEq, Repr

inductive ParseError where
  | emptyFile
  | missingVariableColumns
  | noValidRows
deriving DecidableEq, Repr

instance exceptDecEq {ε α : Type} [DecidableEq ε] [DecidableEq α] :
    DecidableEq (Except ε α) := fun a b =>
  match a, b with
  | .error x, .error y =>
    if h : x = y then isTrue (by rw [h]) else isFalse (fun hc => by cases hc; exact h rfl)
  | .ok x, .ok y =>
    if h : x = y then isTrue (by rw [h]) else isFalse (fun hc => by cases hc; exact h rfl)
  | .error _, .ok _ => isFalse (fun hc => by cases hc)
  | .ok _, .error _ => isFalse (fun hc => by cases hc)

/-- `fileContent.trim().split('\n').filter(line => line.trim())`. -/
def nonBlankLines (content : String) : List String :=
  (splitC '\n' (jsTrim content)).filter (fun l => jsTrim l != "")

/-- Delimiter detection: comma, then tab, then semicolon — the first whose
split of the first line yields at least two fields. -/
def detectDelim (firstLine : String) : Char :=
  if 2 ≤ (splitC ',' firstLine).length then ','
  else if 2 ≤ (splitC '\t' firstLine).length then '\t'
  else ';'

inductive RowRes where
  | blankLine
  | tooFewParts
  | badTimestamp
  | okRow (dt : Int) (vals : List String)
deriving DecidableEq, Repr

/-- One data line of the parser loop: trim, split on the delimiter and trim
fields, require ≥ 2 fields, parse the timestamp. -/
def parseRowRes (delim : Char) (line : String) : RowRes :=
  let l := jsTrim line
  if l = "" then .blankLine
  else
    let parts := (splitC delim l).map jsTrim
    if parts.length < 2 then .tooFewParts
    else
      match parts with
      | [] => .tooFewParts
      | t :: vals =>
        match parseTimestamp t with
        | none => .badTimestamp
        | some dt => .okRow dt vals

/-- The timestamp and value fields of a valid data line. -/
def rowOk (delim : Char) (line : String) : Option (Int × List String) :=
  match parseRowRes delim line with
  | .okRow dt vals => some (dt, vals)
  | _ => none

/-- The point appended for column `i` of a valid row: the sanitized field
when the row has one at that index, `null` when the ragged row lacks it. -/
def rowPoint (t : Int) (vals : List String) (i : Nat) : DataPoint :=
  ⟨t, match vals[i]? with
      | some v => cleanValue v
      | none => none⟩

/-- The `headers.forEach((header, index) => ...)` body of a valid row:
push `{instant, cleanValue(values[index])}` when the row has a field at
`index`, else push `{instant, null}`. -/
def pushPairs (t : Int) (vals : List String) : List (Nat × String) → RMap (List DataPoint) → RMap (List DataPoint)
  | [], m => m
  | (i, h) :: rest, m =>
    let m' := match getR m h with
      | some l => setR m h (l ++ [rowPoint t vals i])
      | none => m
    pushPairs t vals rest m'

structure ParseSt where
  vars : RMap (List DataPoint)
  validRows : Nat
  invalidRows : Nat
deriving DecidableEq, Repr

/-- Processing of one data line, updating the series map and counters. -/
def processLine (delim : Char) (headers : List String) (st : ParseSt) (line : String) : ParseSt :=
  match parseRowRes delim line with
  | .blankLine => st
  | .tooFewParts => st
  | .badTimestamp => { st with invalidRows := st.invalidRows + 1 }
  | .okRow dt vals =>
    { st with vars := pushPairs dt vals headers.enum st.vars,
              validRows := st.validRows + 1 }

/-- Fuel-driven slicing into `CHUNK_SIZE = 200` pieces; any fuel at least
the list length yields the chunking. -/
def toChunksF : Nat → List String → List (List String)
  | _, [] => []
  | 0, ls => [ls]
  | Nat.succ f, ls => ls.take 200 :: toChunksF f (ls.drop 200)

/-- The chunked loop structure: slices of `CHUNK_SIZE = 200` data lines. -/
def toChunks (ls : List String) : List (List String) :=
  toChunksF ls.length ls

structure ChunkAcc where
  st : ParseSt
  processed : Nat
  lastRep : ℚ
  trace : List ℚ
deriving Repr

/-- One chunk iteration: process the lines, then report
`min(5 + processed/total * 90, 95)` only when it exceeds the last report
by more than 1. -/
def chunkStep (delim : Char) (headers : List String) (totalRows : Nat)
    (acc : ChunkAcc) (chunk : List String) : ChunkAcc :=
  let st' := chunk.foldl (processLine delim headers) acc.st
  let processed' := acc.processed + chunk.length
  let np := min (5 + (processed' : ℚ) / (totalRows : ℚ) * 90) 95
  if acc.lastRep + 1 < np then
    ⟨st', processed', np, acc.trace ++ [np]⟩
  else
    ⟨st', processed', acc.lastRep, acc.trace⟩

def colorPalette : List String :=
  ["#3B82F6", "#EF4444", "#10B981", "#F59E0B", "#8B5CF6",
   "#F97316", "#06B6D4", "#84CC16", "#EC4899", "#6B7280"]

/-- `getNextColor`: palette entry at the cursor modulo the palette size. -/
def paletteColor (i : Nat) : String :=
  colorPalette.getD (i % colorPalette.length) ""

/-- The color-assignment loop over the headers, threading the module-level
`colorIndex` cursor. -/
def assignColors (headers : List String) (ci : Nat) : RMap String × Nat :=
  headers.foldl (fun acc h => (setR acc.1 h (paletteColor acc.2), acc.2 + 1)) ([], ci)

/-- `parseDataFile` (src/unnamed/part_002 lines 140-299). Returns the
parse outcome together with the sequence of values passed to `onProgress`,
in call order, and the advanced color cursor. -/
def parseDataFile (content fileName : String) (colorIdx : Nat) :
    Except ParseError (Dataset × Nat) × List ℚ :=
  let lines := nonBlankLines content
  if lines.length < 2 then (.error .emptyFile, [])
  else
    let totalRows := lines.length - 1
    let delim := detectDelim (lines.headD "")
    let headerParts := (splitC delim (lines.headD "")).map jsTrim
    if headerParts.length < 2 then (.error .missingVariableColumns, [2])
    else
      let headers := headerParts.drop 1
      let vars0 := headers.foldl (fun m h => setR m h ([] : List DataPoint)) []
      let dls := lines.drop 1
      let res := (toChunks dls).foldl (chunkStep delim headers totalRows)
        ⟨⟨vars0, 0, 0⟩, 0, 5, []⟩
      let trace := [2, 5] ++ res.trace ++ [98]
      if res.st.validRows = 0 then (.error .noValidRows, trace)
      else
        let cres := assignColors headers colorIdx
        (.ok (⟨fileName, headers, res.st.vars, res.st.validRows, cres.1⟩, cres.2),
         trace ++ [100])

/-! ### Spec-side characterizations of the parser -/

/-- The trimmed header fields of the first non-blank line, split on the
detected delimiter. -/
def headerFieldsOf (content : String) : List String :=
  let lines := nonBlankLines content
  (splitC (detectDelim (lines.headD "")) (lines.headD "")).map jsTrim

/-- The variable names: header fields after the timestamp column. -/
def headersOf (content : String) : List String :=
  (headerFieldsOf content).drop 1

/-- The valid data rows of an input, in file order. -/
def validRowsOf (content : String) : List (Int × List String) :=
  let lines := nonBlankLines content
  (lines.drop 1).filterMap (rowOk (detectDelim (lines.headD "")))

/-- The point a valid row contributes to variable `h`: the row's instant
paired with the sanitized field at `h`'s column, or `null` when the ragged
row lacks that column. -/
def expectedPoint (headers : List String) (h : String) (row : Int × List String) : DataPoint :=
  rowPoint row.1 row.2 (headers.indexOf h)

/-! ### Aggregate statistics
(`calculateStats`, src/src/components/StatisticsPanel.tsx lines 48-128;
`calculateSelectionStats`, src/src/components/TimeSeriesChart.tsx lines 90-147) -/

/-- `Math.min(...values)` over a non-empty list ( `0` is a dummy for `[]`,
which the callers exclude). -/
def jsMinList : List ℚ → ℚ
  | [] => 0
  | x :: xs => xs.foldl min x

def jsMaxList : List ℚ → ℚ
  | [] => 0
  | x :: xs => xs.foldl max x

def insertSorted (x : ℚ) : List ℚ → List ℚ
  | [] => [x]
  | y :: ys => if x ≤ y then x :: y :: ys else y :: insertSorted x ys

/-- `[...values].sort((a, b) => a - b)`: the ascending sort of the values.
Insertion sort is extensionally the source's comparison sort: on values
(not keyed records) every ascending sort yields the same list. -/
def sortAsc (l : List ℚ) : List ℚ := l.foldr insertSorted []

/-- The statistics record of `calculateStats`. The source stores
`stdDev = Math.sqrt(variance)`; over the rational model we carry the
`variance` (the square of the population standard deviation), which is the
quantity the divide-by-N claim is about. -/
structure StatsV where
  min : ℚ
  max : ℚ
  avg : ℚ
  median : ℚ
  variance : ℚ
  count : Nat
  range : ℚ
deriving DecidableEq, Repr

/-- The per-variable statistics computation of `calculateStats`
(StatisticsPanel.tsx lines 92-127): filter to non-null values, `null` when
none remain, else min/max/mean/population-variance/median/count/range. -/
def calculateStats (points : List DataPoint) : Option StatsV :=
  let values := points.filterMap (fun d => d.value)
  if values.isEmpty then none
  else
    let mn := jsMinList values
    let mx := jsMaxList values
    let sum := values.foldl (· + ·) 0
    let avg := sum / (values.length : ℚ)
    let variance := (values.foldl (fun acc val => acc + (val - avg) ^ 2) 0) / (values.length : ℚ)
    let sortedValues := sortAsc values
    let median :=
      if values.length % 2 = 0 then
        (sortedValues.getD (values.length / 2 - 1) 0 + sortedValues.getD (values.length / 2) 0) / 2
      else sortedValues.getD (values.length / 2) 0
    some ⟨mn, mx, avg, median, variance, values.length, mx - mn⟩

/-- The statistics record of `calculateSelectionStats` (per variable). -/
structure SelStatsV where
  min : ℚ
  max : ℚ
  avg : ℚ
  sum : ℚ
  count : Nat
  startTime : Int
  endTime : Int
deriving DecidableEq, Repr

/-- The per-variable computation of `calculateSelectionStats`
(TimeSeriesChart.tsx lines 113-143): filter to points inside the inclusive
selection range with non-null value, skip the variable when none remain,
else min/max/mean/sum/count. -/
def calculateSelectionStats (points : List DataPoint) (startTime endTime : Int) :
    Option SelStatsV :=
  let filteredData := points.filter (fun p =>
    decide (startTime ≤ p.datetime) && decide (p.datetime ≤ endTime) && p.value.isSome)
  if filteredData.isEmpty then none
  else
    let values := filteredData.filterMap (fun p => p.value)
    let mn := jsMinList values
    let mx := jsMaxList values
    let sum := values.foldl (· + ·) 0
    let avg := sum / (values.length : ℚ)
    some ⟨mn, mx, avg, sum, values.length, startTime, endTime⟩

/-- Spec side: the non-null values of a series, in order. -/
def nonNullValues (points : List DataPoint) : List ℚ :=
  points.filterMap (fun d => d.value)

/-- Spec side: the non-null values with instants inside the inclusive
range `[a, b]`, in order. -/
def rangeValues (points : List DataPoint) (a b : Int) : List ℚ :=
  (points.filter (fun p =>
    decide (a ≤ p.datetime) && decide (p.datetime ≤ b) && p.value.isSome)).filterMap
    (fun p => p.value)

/-! ### Dataset registry (src/unnamed/part_002 lines 343-346, 404-419, 450-473) -/

structure VariableConfig where
  enabled : Bool
  label : String
  color : String
  yMin : Option ℚ := none
  yMax : Option ℚ := none
deriving DecidableEq, Repr

structure SessionState where
  datasets : RMap Dataset
  variableConfigs : RMap VariableConfig
  selectedVariables : List String
deriving DecidableEq, Repr

def strToLower (s : String) : String := ⟨s.data.map Char.toLower⟩

/-- Model of JS `endsWith`. -/
def strEnds (s suf : String) : Bool := suf.data.isSuffixOf s.data

def strDropRight (s : String) (n : Nat) : String :=
  ⟨s.data.take (s.data.length - n)⟩

/-- `getCleanFileName`: strip a `.csv`/`.txt`/`.xlsx`/`.xls` extension,
case-insensitively. -/
def getCleanFileName (fileName : String) : String :=
  let lower := strToLower fileName
  if strEnds lower ".xlsx" then strDropRight fileName 5
  else if strEnds lower ".csv" || strEnds lower ".txt" || strEnds lower ".xls" then
    strDropRight fileName 4
  else fileName

/-- The default configs derived for a newly parsed dataset
(`handleFileUpload`, lines 408-417): key `cleanFileName + '_' + header`,
`{enabled: false, label: header, color: colors[header]}`. -/
def newConfigsFor (cleanFileName : String) (ds : Dataset) : RMap VariableConfig :=
  ds.headers.foldl (fun m h =>
    setR m ((cleanFileName ++ "_") ++ h)
      ⟨false, h, (getR ds.colors h).getD "", none, none⟩) []

/-- JS object spread `{...a, ...b}`: entries of `b` written over `a`. -/
def spreadR {α : Type} (a b : RMap α) : RMap α :=
  b.foldl (fun m p => setR m p.1 p.2) a

/-- The registry update of the success path of `handleFileUpload`
(lines 404-419): store the dataset under the cleaned file name and spread
the freshly derived default configs over the existing ones. -/
def registerDataset (st : SessionState) (fileName : String) (ds : Dataset) : SessionState :=
  let cleanFileName := getCleanFileName fileName
  { datasets := setR st.datasets cleanFileName ds
    variableConfigs := spreadR st.variableConfigs (newConfigsFor cleanFileName ds)
    selectedVariables := st.selectedVariables }

/-- `removeDataset` (lines 450-473): delete the dataset entry, every
config whose key starts with `fileName + '_'`, and every such selected
key. -/
def removeDataset (st : SessionState) (fileName : String) : SessionState :=
  { datasets := delR st.datasets fileName
    variableConfigs := st.variableConfigs.filter
      (fun p => !(strStarts p.1 (fileName ++ "_")))
    selectedVariables := st.selectedVariables.filter
      (fun varId => !(strStarts varId (fileName ++ "_"))) }

/-! ### Lemmas: record maps -/

theorem getR_setR {α : Type} (m : RMap α) (k k' : String) (v : α) :
    getR (setR m k v) k' = if k' = k then some v else getR m k' := by
  induction m with
  | nil =>
    simp only [setR, getR]
    by_cases hk : k' = k
    · simp [hk]
    · simp [hk, show ¬k = k' from fun h => hk h.symm]
  | cons a m ih =>
    simp only [setR]
    by_cases hak : a.1 = k
    · rw [if_pos hak]
      by_cases hk : k' = k
      · subst hk
        simp [getR]
      · simp only [getR, if_neg (show ¬k = k' from fun h => hk h.symm), if_neg hk,
          if_neg (show ¬a.1 = k' from fun h => hk (h.symm.trans hak))]
    · rw [if_neg hak]
      by_cases hak' : a.1 = k'
      · simp only [getR, if_pos hak',
          if_neg (show ¬k' = k from fun h => hak (hak'.trans h))]
      · simp only [getR, if_neg hak', ih]

theorem getR_delR {α : Type} (m : RMap α) (k k' : String) :
    getR (delR m k) k' = if k' = k then none else getR m k' := by
  induction m with
  | nil =>
    simp only [delR, getR]
    by_cases hk : k' = k <;> simp [hk]
  | cons a m ih =>
    simp only [delR]
    by_cases hak : a.1 = k
    · rw [if_pos hak, ih]
      by_cases hk : k' = k
      · simp [hk]
      · simp only [getR, if_neg hk,
          if_neg (show ¬a.1 = k' from fun h => hk (h.symm.trans hak))]
    · rw [if_neg hak]
      by_cases hak' : a.1 = k'
      · simp only [getR, if_pos hak',
          if_neg (show ¬k' = k from fun h => hak (hak'.trans h))]
      · simp only [getR, if_neg hak', ih]

theorem getR_filter_key {α : Type} (m : RMap α) (q : String → Bool) (k : String) :
    getR (m.filter (fun p => q p.1)) k = if q k then getR m k else none := by
  induction m with
  | nil =>
    by_cases hq : q k <;> simp [getR, hq]
  | cons a m ih =>
    by_cases hak : a.1 = k
    · subst hak
      by_cases hq : q a.1
      · simp [List.filter_cons, getR, hq, ih]
      · simp only [List.filter_cons, Bool.not_eq_true] at hq ⊢
        simp [hq, ih, getR]
    · by_cases hq : q a.1
      · simp [List.filter_cons, getR, hq, hak, ih]
      · simp only [List.filter_cons, Bool.not_eq_true] at hq ⊢
        simp [hq, ih, getR, hak]

/-! ### Lemmas: the per-row push over the header list -/

theorem pushPairs_getR_not_mem (t : Int) (vals : List String) (pairs : List (Nat × String))
    (m : RMap (List DataPoint)) (h : String) (hnm : h ∉ pairs.map Prod.snd) :
    getR (pushPairs t vals pairs m) h = getR m h := by
  induction pairs generalizing m with
  | nil => rfl
  | cons p rest ih =>
    obtain ⟨i, g⟩ := p
    simp only [List.map_cons, List.mem_cons, not_or] at hnm
    obtain ⟨hgh, hrest⟩ := hnm
    simp only [pushPairs]
    rcases hg : getR m g with _ | l
    · exact ih _ hrest
    · rw [ih _ hrest, getR_setR, if_neg hgh]

theorem pushPairs_getR_nodup (t : Int) (vals : List String) (pairs : List (Nat × String))
    (m : RMap (List DataPoint)) (i : Nat) (h : String)
    (hnd : (pairs.map Prod.snd).Nodup) (hmem : (i, h) ∈ pairs) :
    getR (pushPairs t vals pairs m) h =
      (getR m h).map (fun l => l ++ [rowPoint t vals i]) := by
  induction pairs generalizing m with
  | nil => simp at hmem
  | cons p rest ih =>
    obtain ⟨j, g⟩ := p
    simp only [List.map_cons, List.nodup_cons] at hnd
    obtain ⟨hgrest, hndrest⟩ := hnd
    rcases List.mem_cons.mp hmem with heq | hmem'
    · have hij : i = j := congrArg Prod.fst heq
      have hhg : h = g := congrArg Prod.snd heq
      subst hij
      subst hhg
      simp only [pushPairs]
      rcases hg : getR m h with _ | l
      · rw [pushPairs_getR_not_mem t vals rest m h hgrest, hg]
        rfl
      · rw [pushPairs_getR_not_mem t vals rest _ h hgrest, getR_setR, if_pos rfl]
        rfl
    · have hgh : ¬h = g := fun hgh =>
        hgrest (hgh ▸ (List.mem_map.mpr ⟨(i, h), hmem', rfl⟩))
      simp only [pushPairs]
      rcases hg : getR m g with _ | l
      · exact ih m hndrest hmem'
      · rw [ih _ hndrest hmem', getR_setR, if_neg hgh]

theorem pushPairs_getR_none (t : Int) (vals : List String) (pairs : List (Nat × String))
    (m : RMap (List DataPoint)) (h : String) (hn : getR m h = none) :
    getR (pushPairs t vals pairs m) h = none := by
  induction pairs generalizing m with
  | nil => exact hn
  | cons p rest ih =>
    obtain ⟨j, g⟩ := p
    simp only [pushPairs]
    rcases hg : getR m g with _ | l
    · exact ih _ hn
    · refine ih _ ?_
      rw [getR_setR]
      have hne : ¬h = g := fun hh => by
        rw [hh, hg] at hn
        exact Option.noConfusion hn
      rw [if_neg hne]
      exact hn

theorem pushPairs_getR_length (t : Int) (vals : List String) (pairs : List (Nat × String))
    (m : RMap (List DataPoint)) (h : String) (l : List DataPoint) (hl : getR m h = some l) :
    ∃ l', getR (pushPairs t vals pairs m) h = some l' ∧
      l'.length = l.length + (pairs.filter (fun p => p.2 == h)).length := by
  induction pairs generalizing m l with
  | nil => exact ⟨l, hl, by simp⟩
  | cons p rest ih =>
    obtain ⟨j, g⟩ := p
    simp only [pushPairs]
    by_cases hgh : g = h
    · subst hgh
      rw [hl]
      have hset : getR (setR m g (l ++ [rowPoint t vals j])) g =
          some (l ++ [rowPoint t vals j]) := by
        rw [getR_setR, if_pos rfl]
      obtain ⟨l', hg', hlen⟩ := ih _ _ hset
      refine ⟨l', hg', ?_⟩
      rw [hlen]
      simp [List.filter_cons]
      omega
    · have hbeq : (g == h) = false := by simp [hgh]
      have hne : ¬h = g := fun hh => hgh hh.symm
      rcases hg : getR m g with _ | l₂
      · obtain ⟨l', hg', hlen⟩ := ih _ _ hl
        refine ⟨l', hg', ?_⟩
        rw [hlen]
        simp [List.filter_cons, hbeq]
      · have hl' : getR (setR m g (l₂ ++ [rowPoint t vals j])) h = some l := by
          rw [getR_setR, if_neg hne]
          exact hl
        obtain ⟨l', hg', hlen⟩ := ih _ _ hl'
        refine ⟨l', hg', ?_⟩
        rw [hlen]
        simp [List.filter_cons, hbeq]

/-! ### Lemmas: header enumeration -/

theorem enumFrom_indexOf_mem (l : List String) (h : String) (hmem : h ∈ l) :
    ∀ n : Nat, (n + l.indexOf h, h) ∈ List.enumFrom n l := by
  induction l with
  | nil => simp at hmem
  | cons a tl ih =>
    intro n
    by_cases hah : a = h
    · subst hah
      simp [List.indexOf_cons_self]
    · have hbe : (a == h) = false := by simp [hah]
      rcases List.mem_cons.mp hmem with heq | htl
      · exact absurd heq.symm hah
      · have := ih htl (n + 1)
        rw [List.indexOf_cons, hbe]
        simp only [cond_false, List.enumFrom]
        refine List.mem_cons.mpr (Or.inr ?_)
        have harith : n + (tl.indexOf h + 1) = (n + 1) + tl.indexOf h := by omega
        rw [harith]
        exact this

theorem enum_indexOf_mem (l : List String) (h : String) (hmem : h ∈ l) :
    (l.indexOf h, h) ∈ l.enum := by
  have := enumFrom_indexOf_mem l h hmem 0
  simpa [List.enum] using this

theorem enumFrom_filter_snd_length (l : List String) (h : String) :
    ∀ n : Nat, ((List.enumFrom n l).filter (fun p => p.2 == h)).length = l.count h := by
  induction l with
  | nil => intro n; simp
  | cons a tl ih =>
    intro n
    by_cases hah : a = h
    · subst hah
      simp [List.enumFrom, List.filter_cons, List.count_cons, ih]
    · have hbe : (a == h) = false := by simp [hah]
      simp [List.enumFrom, List.filter_cons, List.count_cons, hbe, ih]

/-! ### Lemmas: the data-line fold -/

theorem foldl_processLine_validRows (delim : Char) (headers : List String)
    (lines : List String) (st : ParseSt) :
    (lines.foldl (processLine delim headers) st).validRows =
      st.validRows + (lines.filterMap (rowOk delim)).length := by
  induction lines generalizing st with
  | nil => simp
  | cons line rest ih =>
    simp only [List.foldl_cons, List.filterMap_cons]
    rcases hR : parseRowRes delim line with _ | _ | _ | ⟨dt, vals⟩ <;>
      (simp [processLine, rowOk, hR, ih]; try omega)

theorem foldl_processLine_vars (delim : Char) (headers : List String)
    (hnd : headers.Nodup) (h : String) (hmem : h ∈ headers)
    (lines : List String) (st : ParseSt) :
    getR (lines.foldl (processLine delim headers) st).vars h =
      (getR st.vars h).map (fun cur =>
        cur ++ (lines.filterMap (rowOk delim)).map
          (fun row => rowPoint row.1 row.2 (headers.indexOf h))) := by
  induction lines generalizing st with
  | nil =>
    rcases hv : getR st.vars h with _ | cur <;> simp [hv]
  | cons line rest ih =>
    simp only [List.foldl_cons, List.filterMap_cons]
    rcases hR : parseRowRes delim line with _ | _ | _ | ⟨dt, vals⟩
    · simp only [processLine, hR]
      rw [ih st]
      simp [rowOk, hR]
    · simp only [processLine, hR]
      rw [ih st]
      simp [rowOk, hR]
    · simp only [processLine, hR]
      rw [ih]
      simp [rowOk, hR]
    · simp only [processLine, hR]
      rw [ih]
      have hpush := pushPairs_getR_nodup dt vals headers.enum st.vars
        (headers.indexOf h) h (by rw [List.enum_map_snd]; exact hnd)
        (enum_indexOf_mem headers h hmem)
      simp only [hpush]
      rcases hv : getR st.vars h with _ | cur
      · simp [rowOk, hR]
      · simp [rowOk, hR, List.append_assoc]

theorem foldl_processLine_vars_none (delim : Char) (headers : List String) (h : String)
    (lines : List String) (st : ParseSt) (hn : getR st.vars h = none) :
    getR (lines.foldl (processLine delim headers) st).vars h = none := by
  induction lines generalizing st with
  | nil => exact hn
  | cons line rest ih =>
    simp only [List.foldl_cons]
    rcases hR : parseRowRes delim line with _ | _ | _ | ⟨dt, vals⟩ <;>
      simp only [processLine, hR] <;>
      [exact ih st hn; exact ih _ hn; exact ih _ hn;
       exact ih _ (pushPairs_getR_none dt vals headers.enum st.vars h hn)]

theorem foldl_processLine_vars_length (delim : Char) (headers : List String) (h : String)
    (lines : List String) (st : ParseSt) (l : List DataPoint) (hl : getR st.vars h = some l) :
    ∃ l', getR (lines.foldl (processLine delim headers) st).vars h = some l' ∧
      l'.length = l.length + headers.count h * (lines.filterMap (rowOk delim)).length := by
  induction lines generalizing st l with
  | nil => exact ⟨l, hl, by simp⟩
  | cons line rest ih =>
    simp only [List.foldl_cons, List.filterMap_cons]
    rcases hR : parseRowRes delim line with _ | _ | _ | ⟨dt, vals⟩
    · obtain ⟨l', hg, hlen⟩ := ih st l hl
      exact ⟨l', by simpa [processLine, hR] using hg, by simpa [rowOk, hR] using hlen⟩
    · obtain ⟨l', hg, hlen⟩ := ih st l hl
      exact ⟨l', by simpa [processLine, hR] using hg, by simpa [rowOk, hR] using hlen⟩
    · obtain ⟨l', hg, hlen⟩ :=
        ih { st with invalidRows := st.invalidRows + 1 } l hl
      exact ⟨l', by simpa [processLine, hR] using hg, by simpa [rowOk, hR] using hlen⟩
    · obtain ⟨lmid, hmid, hmidlen⟩ :=
        pushPairs_getR_length dt vals headers.enum st.vars h l hl
      have hmid2 : getR (ParseSt.mk (pushPairs dt vals headers.enum st.vars) (st.validRows + 1) st.invalidRows).vars h = some lmid := hmid
      obtain ⟨l', hg, hlen⟩ := ih _ lmid hmid2
      refine ⟨l', by simpa [processLine, hR] using hg, ?_⟩
      rw [hlen, hmidlen]
      have hcnt : ((headers.enum).filter (fun p => p.2 == h)).length = headers.count h := by
        simpa [List.enum] using enumFrom_filter_snd_length headers h 0
      rw [hcnt]
      simp [rowOk, hR, Nat.mul_add, Nat.mul_one]
      ring

/-! ### Lemmas: chunking -/

theorem toChunksF_flatten :
    ∀ (fuel : Nat) (ls : List String), ls.length ≤ fuel →
      (toChunksF fuel ls).flatten = ls := by
  intro fuel
  induction fuel with
  | zero =>
    intro ls h
    have hnil : ls = [] := List.eq_nil_of_length_eq_zero (Nat.le_zero.mp h)
    subst hnil
    rfl
  | succ f ih =>
    intro ls h
    cases ls with
    | nil => rfl
    | cons a tl =>
      show ((a :: tl).take 200 :: toChunksF f ((a :: tl).drop 200)).flatten = a :: tl
      simp only [List.flatten_cons]
      rw [ih _ (by simp only [List.length_drop, List.length_cons] at h ⊢; omega)]
      exact List.take_append_drop 200 (a :: tl)

theorem toChunks_flatten (ls : List String) : (toChunks ls).flatten = ls :=
  toChunksF_flatten ls.length ls le_rfl

theorem chunkFold_st (delim : Char) (headers : List String) (total : Nat)
    (chunks : List (List String)) (acc : ChunkAcc) :
    ((chunks.foldl (chunkStep delim headers total) acc).st) =
      chunks.flatten.foldl (processLine delim headers) acc.st := by
  induction chunks generalizing acc with
  | nil => rfl
  | cons c rest ih =>
    simp only [List.foldl_cons, List.flatten_cons, List.foldl_append]
    rw [ih]
    congr 1
    simp only [chunkStep]
    split <;> rfl

/-! ### Lemmas: series initialization -/

theorem getR_initVars (headers : List String) (m : RMap (List DataPoint)) (k : String) :
    getR (headers.foldl (fun m h => setR m h ([] : List DataPoint)) m) k =
      if k ∈ headers then some [] else getR m k := by
  induction headers generalizing m with
  | nil => simp
  | cons a tl ih =>
    simp only [List.foldl_cons]
    rw [ih]
    by_cases hk : k ∈ tl
    · simp [hk]
    · rw [if_neg hk, getR_setR]
      by_cases hka : k = a
      · simp [hka]
      · simp [hka, hk]

/-! ### Spec-side decomposition of the parser run -/

/-- The parser state before any data line is processed. -/
def parseSt0 (content : String) : ParseSt :=
  ⟨(headersOf content).foldl (fun m h => setR m h ([] : List DataPoint)) [], 0, 0⟩

/-- The parser state after all data lines, as a plain (unchunked) fold. -/
def parseFinalSt (content : String) : ParseSt :=
  ((nonBlankLines content).drop 1).foldl
    (processLine (detectDelim ((nonBlankLines content).headD "")) (headersOf content))
    (parseSt0 content)

/-- The chunk-loop accumulator after all chunks. -/
def chunkFoldOf (content : String) : ChunkAcc :=
  (toChunks ((nonBlankLines content).drop 1)).foldl
    (chunkStep (detectDelim ((nonBlankLines content).headD "")) (headersOf content)
      ((nonBlankLines content).length - 1))
    ⟨parseSt0 content, 0, 5, []⟩

theorem chunkFoldOf_st (content : String) :
    (chunkFoldOf content).st = parseFinalSt content := by
  unfold chunkFoldOf parseFinalSt
  rw [chunkFold_st]
  rw [toChunks_flatten]

def isOkE {ε α : Type} : Except ε α → Bool
  | .ok _ => true
  | .error _ => false

/-! ### Lemmas: outcome shape of `parseDataFile` -/

theorem parseFinalSt_validRows (content : String) :
    (parseFinalSt content).validRows = (validRowsOf content).length := by
  unfold parseFinalSt validRowsOf
  rw [foldl_processLine_validRows]
  simp [parseSt0]

theorem parseDataFile_emptyFile (content fileName : String) (colorIdx : Nat)
    (h : (nonBlankLines content).length < 2) :
    parseDataFile content fileName colorIdx = (.error .emptyFile, []) := by
  unfold parseDataFile
  rw [if_pos h]

theorem parseDataFile_missingVars (content fileName : String) (colorIdx : Nat)
    (h2 : ¬(nonBlankLines content).length < 2)
    (hh : (headerFieldsOf content).length < 2) :
    parseDataFile content fileName colorIdx = (.error .missingVariableColumns, [2]) := by
  unfold headerFieldsOf at hh
  unfold parseDataFile
  rw [if_neg h2, if_pos hh]

theorem parseDataFile_noValidRows (content fileName : String) (colorIdx : Nat)
    (h2 : ¬(nonBlankLines content).length < 2)
    (hh : ¬(headerFieldsOf content).length < 2)
    (hv : validRowsOf content = []) :
    parseDataFile content fileName colorIdx =
      (.error .noValidRows, [2, 5] ++ (chunkFoldOf content).trace ++ [98]) := by
  have hvr : (chunkFoldOf content).st.validRows = 0 := by
    rw [chunkFoldOf_st, parseFinalSt_validRows, hv]
    rfl
  unfold headerFieldsOf at hh
  unfold chunkFoldOf parseSt0 headersOf headerFieldsOf at hvr ⊢
  unfold parseDataFile
  rw [if_neg h2, if_neg hh, if_pos hvr]

theorem parseDataFile_ok (content fileName : String) (colorIdx : Nat)
    (h2 : ¬(nonBlankLines content).length < 2)
    (hh : ¬(headerFieldsOf content).length < 2)
    (hv : validRowsOf content ≠ []) :
    parseDataFile content fileName colorIdx =
      (.ok (⟨fileName, headersOf content, (parseFinalSt content).vars,
              (parseFinalSt content).validRows,
              (assignColors (headersOf content) colorIdx).1⟩,
            (assignColors (headersOf content) colorIdx).2),
       ([2, 5] ++ (chunkFoldOf content).trace ++ [98]) ++ [100]) := by
  have hvr : ¬(chunkFoldOf content).st.validRows = 0 := by
    rw [chunkFoldOf_st, parseFinalSt_validRows]
    simpa using hv
  have hst : (chunkFoldOf content).st = parseFinalSt content := chunkFoldOf_st content
  unfold headerFieldsOf at hh
  unfold chunkFoldOf parseSt0 headersOf headerFieldsOf at hvr hst ⊢
  unfold parseDataFile
  rw [if_neg h2, if_neg hh, if_neg hvr, hst]

/-! ### Lemmas: the progress trace -/

theorem chunkFold_trace_inv (delim : Char) (headers : List String) (total : Nat)
    (chunks : List (List String)) :
    ∀ acc : ChunkAcc,
      acc.trace.Chain' (· < ·) →
      (∀ x ∈ acc.trace, 5 < x ∧ x ≤ 95) →
      (∀ x ∈ acc.trace, x ≤ acc.lastRep) →
      5 ≤ acc.lastRep → acc.lastRep ≤ 95 →
      ((chunks.foldl (chunkStep delim headers total) acc).trace.Chain' (· < ·) ∧
       (∀ x ∈ (chunks.foldl (chunkStep delim headers total) acc).trace, 5 < x ∧ x ≤ 95) ∧
       (∀ x ∈ (chunks.foldl (chunkStep delim headers total) acc).trace,
          x ≤ (chunks.foldl (chunkStep delim headers total) acc).lastRep) ∧
       5 ≤ (chunks.foldl (chunkStep delim headers total) acc).lastRep ∧
       (chunks.foldl (chunkStep delim headers total) acc).lastRep ≤ 95) := by
  induction chunks with
  | nil =>
    intro acc h1 h2 h3 h4 h5
    exact ⟨h1, h2, h3, h4, h5⟩
  | cons c rest ih =>
    intro acc h1 h2 h3 h4 h5
    simp only [List.foldl_cons]
    by_cases hc : acc.lastRep + 1 <
        min (5 + ((acc.processed + c.length : Nat) : ℚ) / (total : ℚ) * 90) 95
    · have hstep : chunkStep delim headers total acc c =
          ⟨c.foldl (processLine delim headers) acc.st, acc.processed + c.length,
           min (5 + ((acc.processed + c.length : Nat) : ℚ) / (total : ℚ) * 90) 95,
           acc.trace ++
             [min (5 + ((acc.processed + c.length : Nat) : ℚ) / (total : ℚ) * 90) 95]⟩ := by
        simp only [chunkStep]
        rw [if_pos hc]
      rw [hstep]
      have hnp95 : min (5 + ((acc.processed + c.length : Nat) : ℚ) / (total : ℚ) * 90) 95
          ≤ (95 : ℚ) := min_le_right _ _
      have hnp5 : (5 : ℚ) <
          min (5 + ((acc.processed + c.length : Nat) : ℚ) / (total : ℚ) * 90) 95 := by
        calc (5 : ℚ) ≤ acc.lastRep := h4
        _ < acc.lastRep + 1 := by linarith
        _ < _ := hc
      apply ih
      · rw [List.chain'_append]
        refine ⟨h1, List.chain'_singleton _, ?_⟩
        intro x hx y hy
        simp only [List.head?_cons, Option.mem_def, Option.some.injEq] at hy
        subst hy
        have hxm : x ∈ acc.trace := List.mem_of_mem_getLast? hx
        calc x ≤ acc.lastRep := h3 x hxm
        _ < acc.lastRep + 1 := by linarith
        _ < _ := hc
      · intro x hx
        rcases List.mem_append.mp hx with hxo | hxn
        · exact h2 x hxo
        · simp only [List.mem_singleton] at hxn
          subst hxn
          exact ⟨hnp5, hnp95⟩
      · intro x hx
        rcases List.mem_append.mp hx with hxo | hxn
        · calc x ≤ acc.lastRep := h3 x hxo
          _ ≤ _ := by linarith [hc]
        · simp only [List.mem_singleton] at hxn
          subst hxn
          exact le_refl _
      · linarith [hnp5]
      · exact hnp95
    · have hstep : chunkStep delim headers total acc c =
          ⟨c.foldl (processLine delim headers) acc.st, acc.processed + c.length,
           acc.lastRep, acc.trace⟩ := by
        simp only [chunkStep]
        rw [if_neg hc]
      rw [hstep]
      exact ih _ h1 h2 h3 h4 h5

/-! ### Lemmas: aggregate statistics -/

theorem foldl_min_mem (xs : List ℚ) (x : ℚ) : xs.foldl min x ∈ x :: xs := by
  induction xs generalizing x with
  | nil => simp
  | cons y ys ih =>
    simp only [List.foldl_cons]
    rcases List.mem_cons.mp (ih (min x y)) with hh | hh
    · rw [hh]
      rcases min_choice x y with hm | hm <;> rw [hm]
      · exact List.mem_cons_self _ _
      · exact List.mem_cons.mpr (Or.inr (List.mem_cons_self _ _))
    · exact List.mem_cons.mpr (Or.inr (List.mem_cons.mpr (Or.inr hh)))

theorem foldl_min_le (xs : List ℚ) (x : ℚ) :
    xs.foldl min x ≤ x ∧ ∀ v ∈ xs, xs.foldl min x ≤ v := by
  induction xs generalizing x with
  | nil => simp
  | cons y ys ih =>
    obtain ⟨h1, h2⟩ := ih (min x y)
    refine ⟨le_trans h1 (min_le_left x y), ?_⟩
    intro v hv
    rcases List.mem_cons.mp hv with rfl | hv'
    · exact le_trans h1 (min_le_right x v)
    · exact h2 v hv'

theorem foldl_max_mem (xs : List ℚ) (x : ℚ) : xs.foldl max x ∈ x :: xs := by
  induction xs generalizing x with
  | nil => simp
  | cons y ys ih =>
    simp only [List.foldl_cons]
    rcases List.mem_cons.mp (ih (max x y)) with hh | hh
    · rw [hh]
      rcases max_choice x y with hm | hm <;> rw [hm]
      · exact List.mem_cons_self _ _
      · exact List.mem_cons.mpr (Or.inr (List.mem_cons_self _ _))
    · exact List.mem_cons.mpr (Or.inr (List.mem_cons.mpr (Or.inr hh)))

theorem foldl_max_le (xs : List ℚ) (x : ℚ) :
    x ≤ xs.foldl max x ∧ ∀ v ∈ xs, v ≤ xs.foldl max x := by
  induction xs generalizing x with
  | nil => simp
  | cons y ys ih =>
    obtain ⟨h1, h2⟩ := ih (max x y)
    refine ⟨le_trans (le_max_left x y) h1, ?_⟩
    intro v hv
    rcases List.mem_cons.mp hv with rfl | hv'
    · exact le_trans (le_max_right x v) h1
    · exact h2 v hv'

theorem jsMinList_mem (l : List ℚ) (hne : l ≠ []) : jsMinList l ∈ l := by
  cases l with
  | nil => exact absurd rfl hne
  | cons x xs => exact foldl_min_mem xs x

theorem jsMinList_le (l : List ℚ) (v : ℚ) (hv : v ∈ l) : jsMinList l ≤ v := by
  cases l with
  | nil => simp at hv
  | cons x xs =>
    rcases List.mem_cons.mp hv with rfl | hv'
    · exact (foldl_min_le xs v).1
    · exact (foldl_min_le xs x).2 v hv'

theorem jsMaxList_mem (l : List ℚ) (hne : l ≠ []) : jsMaxList l ∈ l := by
  cases l with
  | nil => exact absurd rfl hne
  | cons x xs => exact foldl_max_mem xs x

theorem jsMaxList_le (l : List ℚ) (v : ℚ) (hv : v ∈ l) : v ≤ jsMaxList l := by
  cases l with
  | nil => simp at hv
  | cons x xs =>
    rcases List.mem_cons.mp hv with rfl | hv'
    · exact (foldl_max_le xs v).1
    · exact (foldl_max_le xs x).2 v hv'

theorem foldl_add_map (f : ℚ → ℚ) (l : List ℚ) :
    ∀ a : ℚ, l.foldl (fun acc v => acc + f v) a = a + (l.map f).sum := by
  induction l with
  | nil => intro a; simp
  | cons x xs ih =>
    intro a
    simp only [List.foldl_cons, List.map_cons, List.sum_cons, ih]
    ring

theorem foldl_add_sum (l : List ℚ) (a : ℚ) : l.foldl (· + ·) a = a + l.sum := by
  have := foldl_add_map id l a
  simpa using this

theorem insertSorted_perm (x : ℚ) (l : List ℚ) : (insertSorted x l).Perm (x :: l) := by
  induction l with
  | nil => simp [insertSorted]
  | cons y ys ih =>
    simp only [insertSorted]
    split
    · exact List.Perm.refl _
    · exact (List.Perm.cons y ih).trans (List.Perm.swap x y ys)

theorem insertSorted_sorted (x : ℚ) (l : List ℚ) (h : l.Pairwise (· ≤ ·)) :
    (insertSorted x l).Pairwise (· ≤ ·) := by
  induction l with
  | nil => simp [insertSorted]
  | cons y ys ih =>
    rcases List.pairwise_cons.mp h with ⟨hy, hys⟩
    simp only [insertSorted]
    by_cases hxy : x ≤ y
    · rw [if_pos hxy]
      refine List.pairwise_cons.mpr ⟨?_, h⟩
      intro v hv
      rcases List.mem_cons.mp hv with rfl | hv'
      · exact hxy
      · exact le_trans hxy (hy v hv')
    · rw [if_neg hxy]
      refine List.pairwise_cons.mpr ⟨?_, ih hys⟩
      intro v hv
      have hv2 : v ∈ x :: ys := (insertSorted_perm x ys).mem_iff.mp hv
      rcases List.mem_cons.mp hv2 with rfl | hv'
      · exact le_of_not_le hxy
      · exact hy v hv'

theorem sortAsc_perm (l : List ℚ) : (sortAsc l).Perm l := by
  induction l with
  | nil => simp [sortAsc]
  | cons x xs ih =>
    simp only [sortAsc, List.foldr_cons]
    exact (insertSorted_perm _ _).trans (List.Perm.cons x ih)

theorem sortAsc_sorted (l : List ℚ) : (sortAsc l).Pairwise (· ≤ ·) := by
  induction l with
  | nil => simp [sortAsc]
  | cons x xs ih =>
    simp only [sortAsc, List.foldr_cons]
    exact insertSorted_sorted x _ ih

/-! ### Lemmas: registry maps -/

theorem strAppend_left_cancel (s a b : String) (h : s ++ a = s ++ b) : a = b := by
  apply String.ext
  have h2 := congrArg String.data h
  rw [String.data_append, String.data_append] at h2
  exact List.append_cancel_left h2

def keysNodupR {α : Type} (m : RMap α) : Prop := (m.map Prod.fst).Nodup

theorem keys_setR_subset {α : Type} (m : RMap α) (k x : String) (v : α)
    (hx : x ∈ (setR m k v).map Prod.fst) : x ∈ m.map Prod.fst ∨ x = k := by
  induction m with
  | nil => simpa [setR] using hx
  | cons a tl ih =>
    simp only [setR] at hx
    by_cases hak : a.1 = k
    · rw [if_pos hak] at hx
      simp only [List.map_cons, List.mem_cons] at hx ⊢
      rcases hx with rfl | hx
      · exact Or.inr rfl
      · exact Or.inl (Or.inr hx)
    · rw [if_neg hak] at hx
      simp only [List.map_cons, List.mem_cons] at hx ⊢
      rcases hx with rfl | hx
      · exact Or.inl (Or.inl rfl)
      · rcases ih hx with h | h
        · exact Or.inl (Or.inr h)
        · exact Or.inr h

theorem getR_eq_none_iff {α : Type} (m : RMap α) (k : String) :
    getR m k = none ↔ k ∉ m.map Prod.fst := by
  induction m with
  | nil => simp [getR]
  | cons a tl ih =>
    simp only [getR, List.map_cons, List.mem_cons]
    by_cases hak : a.1 = k
    · simp [hak]
    · simp only [if_neg hak, ih, not_or]
      constructor
      · intro h
        exact ⟨fun hh => hak hh.symm, h⟩
      · intro h
        exact h.2

theorem keysNodup_setR {α : Type} (m : RMap α) (k : String) (v : α)
    (h : keysNodupR m) : keysNodupR (setR m k v) := by
  induction m with
  | nil => simp [setR, keysNodupR]
  | cons a tl ih =>
    simp only [keysNodupR, List.map_cons, List.nodup_cons] at h
    obtain ⟨ha, htl⟩ := h
    simp only [setR]
    by_cases hak : a.1 = k
    · rw [if_pos hak]
      simp only [keysNodupR, List.map_cons, List.nodup_cons]
      exact ⟨hak ▸ ha, htl⟩
    · rw [if_neg hak]
      simp only [keysNodupR, List.map_cons, List.nodup_cons]
      refine ⟨?_, ih htl⟩
      intro hmem
      rcases keys_setR_subset tl k a.1 v hmem with hh | hh
      · exact ha hh
      · exact hak hh

theorem getR_spreadR_of_none {α : Type} (b : RMap α) :
    ∀ (a : RMap α) (k : String), getR b k = none →
      getR (spreadR a b) k = getR a k := by
  induction b with
  | nil => intro a k _; rfl
  | cons p rest ih =>
    intro a k hb
    have hp : ¬p.1 = k := by
      intro hh
      rw [getR, if_pos hh] at hb
      exact Option.noConfusion hb
    have hrest : getR rest k = none := by
      rw [getR, if_neg hp] at hb
      exact hb
    show getR (spreadR (setR a p.1 p.2) rest) k = getR a k
    rw [ih _ k hrest, getR_setR, if_neg (fun hh : k = p.1 => hp hh.symm)]

theorem getR_spreadR_of_some {α : Type} (b : RMap α) :
    ∀ (a : RMap α) (k : String) (v : α), keysNodupR b → getR b k = some v →
      getR (spreadR a b) k = some v := by
  induction b with
  | nil => intro a k v _ hb; simp [getR] at hb
  | cons p rest ih =>
    intro a k v hnd hb
    simp only [keysNodupR, List.map_cons, List.nodup_cons] at hnd
    obtain ⟨hpk, hndrest⟩ := hnd
    by_cases hp : p.1 = k
    · have hv : p.2 = v := by
        rw [getR, if_pos hp] at hb
        exact Option.some.inj hb
      have hrn : getR rest k = none :=
        (getR_eq_none_iff rest k).mpr (fun hmem => hpk (hp ▸ hmem))
      show getR (spreadR (setR a p.1 p.2) rest) k = some v
      rw [getR_spreadR_of_none rest _ k hrn, getR_setR,
        if_pos (hp ▸ rfl : k = p.1), hv]
    · have hb' : getR rest k = some v := by
        rw [getR, if_neg hp] at hb
        exact hb
      show getR (spreadR (setR a p.1 p.2) rest) k = some v
      exact ih _ k v hndrest hb'

/-! ### Lemmas: the derived default configs -/

theorem cfg_fold_not_mem (cfn : String) (colors : RMap String) :
    ∀ (headers : List String) (m : RMap VariableConfig) (k : String),
      (∀ h ∈ headers, ((cfn ++ "_") ++ h) ≠ k) →
      getR (headers.foldl (fun m h =>
        setR m ((cfn ++ "_") ++ h)
          ⟨false, h, (getR colors h).getD "", none, none⟩) m) k = getR m k := by
  intro headers
  induction headers with
  | nil => intro m k _; rfl
  | cons a tl ih =>
    intro m k hk
    simp only [List.foldl_cons]
    rw [ih _ k (fun h hh => hk h (List.mem_cons.mpr (Or.inr hh))), getR_setR,
      if_neg (fun hh : k = (cfn ++ "_") ++ a =>
        hk a (List.mem_cons_self a tl) hh.symm)]

theorem cfg_fold_mem (cfn : String) (colors : RMap String) :
    ∀ (headers : List String) (m : RMap VariableConfig) (h : String), h ∈ headers →
      getR (headers.foldl (fun m h =>
        setR m ((cfn ++ "_") ++ h)
          ⟨false, h, (getR colors h).getD "", none, none⟩) m) ((cfn ++ "_") ++ h) =
        some ⟨false, h, (getR colors h).getD "", none, none⟩ := by
  intro headers
  induction headers with
  | nil => intro m h hmem; simp at hmem
  | cons a tl ih =>
    intro m h hmem
    simp only [List.foldl_cons]
    by_cases htl : h ∈ tl
    · exact ih _ h htl
    · have hha : h = a := by
        rcases List.mem_cons.mp hmem with hh | hh
        · exact hh
        · exact absurd hh htl
      subst hha
      rw [cfg_fold_not_mem cfn colors tl _ _ ?_, getR_setR, if_pos rfl]
      intro g hg hkey
      exact htl ((strAppend_left_cancel (cfn ++ "_") g h hkey) ▸ hg)

theorem keysNodup_cfg_fold (cfn : String) (colors : RMap String) :
    ∀ (headers : List String) (m : RMap VariableConfig), keysNodupR m →
      keysNodupR (headers.foldl (fun m h =>
        setR m ((cfn ++ "_") ++ h)
          ⟨false, h, (getR colors h).getD "", none, none⟩) m) := by
  intro headers
  induction headers with
  | nil => intro m hm; exact hm
  | cons a tl ih =>
    intro m hm
    simp only [List.foldl_cons]
    exact ih _ (keysNodup_setR m _ _ hm)

theorem getR_newConfigsFor_not_derived (cfn : String) (ds : Dataset) (k : String)
    (hk : ∀ h ∈ ds.headers, ((cfn ++ "_") ++ h) ≠ k) :
    getR (newConfigsFor cfn ds) k = none := by
  unfold newConfigsFor
  rw [cfg_fold_not_mem cfn ds.colors ds.headers [] k hk]
  rfl

theorem getR_newConfigsFor_mem (cfn : String) (ds : Dataset) (h : String)
    (hmem : h ∈ ds.headers) :
    getR (newConfigsFor cfn ds) ((cfn ++ "_") ++ h) =
      some ⟨false, h, (getR ds.colors h).getD "", none, none⟩ := by
  unfold newConfigsFor
  exact cfg_fold_mem cfn ds.colors ds.headers [] h hmem

theorem keysNodup_newConfigsFor (cfn : String) (ds : Dataset) :
    keysNodupR (newConfigsFor cfn ds) := by
  unfold newConfigsFor
  exact keysNodup_cfg_fold cfn ds.colors ds.headers [] (by simp [keysNodupR])

/-! ### Claim theorems -/

/-- C3: for every raw cell string, `cleanValue` strips a leading `=`,
strips all double quotes and trims; an empty/`null`/`undefined` result maps
to null, otherwise a floating-point parse is attempted with null on
failure. Concretely `sanitize('="70.8"') = 70.8`, `sanitize('') = null`,
`sanitize('null') = null`, `sanitize('abc') = null`, `sanitize('0') = 0`.
The Lean function is total, which is the no-exceptions guarantee. -/
theorem c3_cleanValue_spec :
    (∀ s : String,
      cleanValue s =
        (if jsTrim (removeQuotes (stripLeadingEq s)) = "" ∨
            jsTrim (removeQuotes (stripLeadingEq s)) = "null" ∨
            jsTrim (removeQuotes (stripLeadingEq s)) = "undefined" then none
         else jsParseFloat (jsTrim (removeQuotes (stripLeadingEq s))))) ∧
    cleanValue "=\"70.8\"" = some (354 / 5) ∧
    cleanValue "" = none ∧
    cleanValue "null" = none ∧
    cleanValue "abc" = none ∧
    cleanValue "0" = some 0 :=
  ⟨fun _ => rfl, by decide, by decide, by decide, by decide, by decide⟩

/-- C2: `parseTimestamp` maps `'2024-03-05 14:30:00'` and
`'05/03/2024 14.30'` to the same local instant March 5 2024 14:30:00,
`'05/03/2024 14.30.15'` to March 5 2024 14:30:15, `'not a date'` to null,
and any input accepted by neither the ISO branch (contains `-`, length
≥ 19, valid via the date constructor) nor the legacy shape to null. -/
theorem c2_parseTimestamp_spec :
    parseTimestamp "2024-03-05 14:30:00" = some (msOfCivil 2024 3 5 14 30 0) ∧
    parseTimestamp "05/03/2024 14.30" = some (msOfCivil 2024 3 5 14 30 0) ∧
    parseTimestamp "05/03/2024 14.30.15" = some (msOfCivil 2024 3 5 14 30 15) ∧
    parseTimestamp "not a date" = none ∧
    (∀ s : String,
      ¬(strContains (cleanTs s) '-' ∧ 19 ≤ (cleanTs s).length ∧
          (jsDateParse (cleanTs s)).isSome = true) →
      legacyParse (cleanTs s) = none →
      parseTimestamp s = none) := by
  refine ⟨by decide, by decide, by decide, by decide, ?_⟩
  intro s hiso hleg
  unfold parseTimestamp
  by_cases hc : strContains (cleanTs s) '-' ∧ 19 ≤ (cleanTs s).length
  · rw [if_pos hc]
    rcases hjd : jsDateParse (cleanTs s) with _ | t
    · exact hleg
    · exact absurd ⟨hc.1, hc.2, by rw [hjd]; rfl⟩ hiso
  · rw [if_neg hc]
    exact hleg

theorem c2_parseTimestamp_witness : parseTimestamp "xyz" = none :=
  c2_parseTimestamp_spec.2.2.2.2 "xyz" (by decide) (by decide)

/-- C9 counterexample: the claim says a time token with 4 fields yields
null; the source only requires at least 2 fields, so
`'05/03/2024 14.30.15.99'` parses successfully (as 14:30:15, the fourth
field ignored). -/
theorem c9_time_token_cex :
    (splitTimeSep "14.30.15.99").length = 4 ∧
    parseTimestamp "05/03/2024 14.30.15.99" = some (msOfCivil 2024 3 5 14 30 15) :=
  ⟨by decide, by decide⟩

/-- C9 (amended): for inputs the ISO branch does not accept,
`parseTimestamp` returns null whenever the cleaned string does not split on
whitespace into exactly two tokens, or the date token does not split on
`/`/`-` into exactly 3 fields, or the time token splits on `.`/`:` into
fewer than 2 fields; a time token with more than 3 fields is accepted with
the extra fields ignored. -/
theorem c9_legacy_token_counts :
    (∀ s : String,
      ¬(strContains (cleanTs s) '-' ∧ 19 ≤ (cleanTs s).length ∧
          (jsDateParse (cleanTs s)).isSome = true) →
      (((splitWsJs (cleanTs s)).length ≠ 2 → parseTimestamp s = none) ∧
       (∀ d t : String, splitWsJs (cleanTs s) = [d, t] →
         (((splitDateSep d).length ≠ 3 → parseTimestamp s = none) ∧
          ((splitTimeSep t).length < 2 → parseTimestamp s = none))))) ∧
    parseTimestamp "05/03/2024 14.30.15.99" = some (msOfCivil 2024 3 5 14 30 15) := by
  refine ⟨?_, by decide⟩
  intro s hiso
  have hred : parseTimestamp s = legacyParse (cleanTs s) := by
    unfold parseTimestamp
    by_cases hc : strContains (cleanTs s) '-' ∧ 19 ≤ (cleanTs s).length
    · rw [if_pos hc]
      rcases hjd : jsDateParse (cleanTs s) with _ | t
      · rfl
      · exact absurd ⟨hc.1, hc.2, by rw [hjd]; rfl⟩ hiso
    · rw [if_neg hc]
  refine ⟨?_, ?_⟩
  · intro hlen
    rw [hred]
    unfold legacyParse
    rcases hsp : splitWsJs (cleanTs s) with _ | ⟨d, tl⟩
    · rfl
    · rcases tl with _ | ⟨t, tl2⟩
      · rfl
      · rcases tl2 with _ | ⟨u, tl3⟩
        · exact absurd (by rw [hsp]; rfl) hlen
        · rfl
  · intro d t hsp
    have hpair : legacyParse (cleanTs s) = legacyParseDateTime d t := by
      unfold legacyParse
      rw [hsp]
    constructor
    · intro hdate
      rw [hred, hpair]
      unfold legacyParseDateTime
      rcases hds : splitDateSep d with _ | ⟨p0, dl⟩
      · rfl
      · rcases dl with _ | ⟨p1, dl2⟩
        · rfl
        · rcases dl2 with _ | ⟨p2, dl3⟩
          · rfl
          · rcases dl3 with _ | ⟨p3, dl4⟩
            · exact absurd (by rw [hds]; rfl) hdate
            · rfl
    · intro htime
      rw [hred, hpair]
      unfold legacyParseDateTime
      rcases hds : splitDateSep d with _ | ⟨p0, dl⟩
      · rfl
      · rcases dl with _ | ⟨p1, dl2⟩
        · rfl
        · rcases dl2 with _ | ⟨p2, dl3⟩
          · rfl
          · rcases dl3 with _ | ⟨p3, dl4⟩
            · show legacyParseTime p0 p1 p2 t = none
              unfold legacyParseTime
              have hmap : ((splitTimeSep t).map jsParseInt).length < 2 := by
                rw [List.length_map]
                exact htime
              rw [if_pos hmap]
            · rfl

theorem c9_legacy_witness : parseTimestamp "05/03/2024 14" = none :=
  ((c9_legacy_token_counts.1 "05/03/2024 14" (by decide)).2 "05/03/2024" "14"
    (by decide)).2 (by decide)

/-- C5 counterexample: the claim says a file with header `ts,A` and zero
data rows fails with the no-valid-rows error; the source checks the
non-blank line count first, so it fails with the empty-file error. -/
theorem c5_zero_data_rows_cex :
    (parseDataFile "ts,A" "f" 0).1 = .error .emptyFile ∧
    ParseError.emptyFile ≠ ParseError.noValidRows :=
  ⟨by decide, by decide⟩

/-- C5 (amended): the parser fails with the empty-file error exactly when
the input has fewer than 2 non-blank lines, with the no-variables error
exactly when 2 lines exist but the header yields fewer than 1 variable
name, and with the no-valid-rows error exactly when a header exists and
every data line was invalid. A file with header `ts,A` and zero data rows
therefore fails with the empty-file error (it has only one non-blank
line), as does any one-line file; a file whose data rows are all invalid
fails with the no-valid-rows error. -/
theorem c5_error_taxonomy :
    (∀ (content fileName : String) (colorIdx : Nat),
      ((parseDataFile content fileName colorIdx).1 = .error .emptyFile ↔
        (nonBlankLines content).length < 2) ∧
      ((parseDataFile content fileName colorIdx).1 = .error .missingVariableColumns ↔
        (2 ≤ (nonBlankLines content).length ∧ (headerFieldsOf content).length < 2)) ∧
      ((parseDataFile content fileName colorIdx).1 = .error .noValidRows ↔
        (2 ≤ (nonBlankLines content).length ∧ 2 ≤ (headerFieldsOf content).length ∧
          validRowsOf content = []))) ∧
    (parseDataFile "ts,A" "f" 0).1 = .error .emptyFile ∧
    (parseDataFile "ts,A\nbad row" "f" 0).1 = .error .noValidRows := by
  refine ⟨?_, by decide, by decide⟩
  intro content fileName colorIdx
  by_cases h2 : (nonBlankLines content).length < 2
  · rw [parseDataFile_emptyFile content fileName colorIdx h2]
    exact ⟨iff_of_true rfl h2,
      iff_of_false (by simp) (by rintro ⟨hA, _⟩; omega),
      iff_of_false (by simp) (by rintro ⟨hA, _, _⟩; omega)⟩
  · by_cases hh : (headerFieldsOf content).length < 2
    · rw [parseDataFile_missingVars content fileName colorIdx h2 hh]
      exact ⟨iff_of_false (by simp) h2,
        iff_of_true rfl ⟨by omega, hh⟩,
        iff_of_false (by simp) (by rintro ⟨_, hB, _⟩; omega)⟩
    · by_cases hv : validRowsOf content = []
      · rw [parseDataFile_noValidRows content fileName colorIdx h2 hh hv]
        exact ⟨iff_of_false (by simp) h2,
          iff_of_false (by simp) (by rintro ⟨_, hB⟩; omega),
          iff_of_true rfl ⟨by omega, by omega, hv⟩⟩
      · rw [parseDataFile_ok content fileName colorIdx h2 hh hv]
        exact ⟨iff_of_false (by simp) h2,
          iff_of_false (by simp) (by rintro ⟨_, hB⟩; omega),
          iff_of_false (by simp) (by rintro ⟨_, _, hC⟩; exact hv hC)⟩

/-- Shape of a successful parse: the conditions that held and the
components of the returned dataset. -/
theorem parseDataFile_ok_inv (content fileName : String) (colorIdx : Nat)
    (ds : Dataset) (ci' : Nat)
    (hok : (parseDataFile content fileName colorIdx).1 = .ok (ds, ci')) :
    ds.headers = headersOf content ∧
    ds.series = (parseFinalSt content).vars ∧
    ds.dataCount = (validRowsOf content).length := by
  by_cases h2 : (nonBlankLines content).length < 2
  · rw [parseDataFile_emptyFile content fileName colorIdx h2] at hok
    simp at hok
  by_cases hh : (headerFieldsOf content).length < 2
  · rw [parseDataFile_missingVars content fileName colorIdx h2 hh] at hok
    simp at hok
  by_cases hv : validRowsOf content = []
  · rw [parseDataFile_noValidRows content fileName colorIdx h2 hh hv] at hok
    simp at hok
  rw [parseDataFile_ok content fileName colorIdx h2 hh hv] at hok
  simp only [Except.ok.injEq, Prod.mk.injEq] at hok
  obtain ⟨hds, _⟩ := hok
  rw [← hds]
  exact ⟨rfl, rfl, (parseFinalSt_validRows content).symm ▸ rfl⟩

/-- C1 counterexample: with the duplicate-header input
`ts,A,A,B`, the parse succeeds but series `A` holds two points per row
while series `B` holds one, so the row-alignment claim fails as stated. -/
theorem c1_duplicate_headers_cex :
    ((parseDataFile "ts,A,A,B\n05/03/2024 14.30,1,2,3" "f" 0).1.map
       (fun p => (p.1.headers,
         (getR p.1.series "A").map List.length,
         (getR p.1.series "B").map List.length))) =
      .ok (["A", "A", "B"], some 2, some 1) := by decide

/-- C1 (amended): when the header-derived variable names are pairwise
distinct, every variable's series equals the valid rows mapped to that
variable's column — the sanitized field at its index, or a null-valued
point when the ragged row lacks that column — so all series have
identical length and pairwise-identical instants at every index. -/
theorem c1_row_alignment_of_nodup (content fileName : String) (colorIdx : Nat)
    (ds : Dataset) (ci' : Nat)
    (hok : (parseDataFile content fileName colorIdx).1 = .ok (ds, ci'))
    (hnd : ds.headers.Nodup) :
    (∀ v ∈ ds.headers,
       getR ds.series v = some ((validRowsOf content).map (expectedPoint ds.headers v))) ∧
    (∀ v ∈ ds.headers, ∀ w ∈ ds.headers,
       ∃ lv lw, getR ds.series v = some lv ∧ getR ds.series w = some lw ∧
         lv.length = lw.length ∧
         ∀ i : Nat, (lv[i]?).map DataPoint.datetime = (lw[i]?).map DataPoint.datetime) := by
  obtain ⟨hhd, hsr, _⟩ := parseDataFile_ok_inv content fileName colorIdx ds ci' hok
  rw [hhd] at hnd
  have hchar : ∀ v ∈ headersOf content,
      getR ds.series v =
        some ((validRowsOf content).map (expectedPoint (headersOf content) v)) := by
    intro v hvm
    rw [hsr]
    unfold parseFinalSt
    rw [foldl_processLine_vars _ _ hnd v hvm]
    have h0 : getR (parseSt0 content).vars v = some [] := by
      unfold parseSt0
      rw [getR_initVars]
      rw [if_pos hvm]
    rw [h0]
    rfl
  constructor
  · intro v hvm
    rw [hhd]
    exact hchar v (hhd ▸ hvm)
  · intro v hvm w hwm
    rw [hhd] at hvm hwm
    refine ⟨_, _, hhd ▸ hchar v hvm, hhd ▸ hchar w hwm, by simp, ?_⟩
    intro i
    rcases hrow : (validRowsOf content)[i]? with _ | row
    · simp [List.getElem?_map, hrow]
    · simp [List.getElem?_map, hrow, expectedPoint, rowPoint]

theorem c1_row_alignment_witness :
    getR (Dataset.mk "f" ["A", "B"]
        [("A", [⟨1709649000000, some 1⟩]), ("B", [⟨1709649000000, none⟩])]
        1 [("A", "#3B82F6"), ("B", "#EF4444")]).series "B" =
      some ((validRowsOf "ts,A,B\n05/03/2024 14.30,1").map
        (expectedPoint (Dataset.mk "f" ["A", "B"]
          [("A", [⟨1709649000000, some 1⟩]), ("B", [⟨1709649000000, none⟩])]
          1 [("A", "#3B82F6"), ("B", "#EF4444")]).headers "B")) :=
  (c1_row_alignment_of_nodup "ts,A,B\n05/03/2024 14.30,1" "f" 0
    (Dataset.mk "f" ["A", "B"]
      [("A", [⟨1709649000000, some 1⟩]), ("B", [⟨1709649000000, none⟩])]
      1 [("A", "#3B82F6"), ("B", "#EF4444")]) 2
    (by decide) (by decide)).1 "B" (by decide)

/-- C10: the parser neither fails nor renames duplicate header names:
a series exists exactly for the names occurring in the header, and each
name's series receives one point per occurrence per valid row — so a
name occurring twice receives two points per row, while singly-named
variables receive one. -/
theorem c10_duplicate_headers_shared_series (content fileName : String) (colorIdx : Nat)
    (ds : Dataset) (ci' : Nat)
    (hok : (parseDataFile content fileName colorIdx).1 = .ok (ds, ci')) :
    (∀ h : String, (getR ds.series h).isSome = true ↔ h ∈ ds.headers) ∧
    (∀ h ∈ ds.headers, ∃ l, getR ds.series h = some l ∧
       l.length = ds.headers.count h * ds.dataCount) := by
  obtain ⟨hhd, hsr, hdc⟩ := parseDataFile_ok_inv content fileName colorIdx ds ci' hok
  have h0 : ∀ h ∈ headersOf content, getR (parseSt0 content).vars h = some [] := by
    intro h hm
    unfold parseSt0
    rw [getR_initVars, if_pos hm]
  constructor
  · intro h
    rw [hsr, hhd]
    unfold parseFinalSt
    constructor
    · intro hs
      by_contra hmem
      have hn : getR (parseSt0 content).vars h = none := by
        unfold parseSt0
        rw [getR_initVars, if_neg hmem]
        rfl
      rw [foldl_processLine_vars_none _ _ _ _ _ hn] at hs
      simp at hs
    · intro hmem
      obtain ⟨l, hl, _⟩ := foldl_processLine_vars_length _ _ h _ _ [] (h0 h hmem)
      rw [hl]
      rfl
  · intro h hmem
    rw [hhd] at hmem
    rw [hsr, hdc, hhd]
    unfold parseFinalSt
    obtain ⟨l, hl, hlen⟩ := foldl_processLine_vars_length
      (detectDelim ((nonBlankLines content).headD "")) (headersOf content) h
      ((nonBlankLines content).drop 1) (parseSt0 content) [] (h0 h hmem)
    refine ⟨l, hl, ?_⟩
    rw [hlen]
    simp [validRowsOf]

theorem c10_duplicate_witness :
    (getR (Dataset.mk "f" ["A", "A", "B"]
        [("A", [⟨1709649000000, some 1⟩, ⟨1709649000000, some 2⟩]),
         ("B", [⟨1709649000000, some 3⟩])]
        1 [("A", "#EF4444"), ("B", "#10B981")]).series "A").map List.length =
      some ((["A", "A", "B"] : List String).count "A" * 1) := by
  obtain ⟨l, hl, hlen⟩ := (c10_duplicate_headers_shared_series
    "ts,A,A,B\n05/03/2024 14.30,1,2,3" "f" 0
    (Dataset.mk "f" ["A", "A", "B"]
      [("A", [⟨1709649000000, some 1⟩, ⟨1709649000000, some 2⟩]),
       ("B", [⟨1709649000000, some 3⟩])]
      1 [("A", "#EF4444"), ("B", "#10B981")]) 3 (by decide)).2 "A" (by decide)
  rw [hl]
  simpa using hlen

/-- The assembled progress list is non-decreasing: a strictly-increasing
chunk trace bounded in `(lb, 95]` extends with the tail `[98, 100]`. -/
theorem chain_le_trace : ∀ (tr : List ℚ) (lb : ℚ),
    (∀ x ∈ tr, x ≤ 95) → (∀ y ∈ tr.head?, lb < y) → lb ≤ 98 →
    tr.Chain' (· < ·) → List.Chain' (· ≤ ·) (lb :: (tr ++ [98, 100])) := by
  intro tr
  induction tr with
  | nil =>
    intro lb _ _ hlb _
    exact List.chain'_cons.mpr ⟨hlb,
      List.chain'_cons.mpr ⟨by norm_num, List.chain'_singleton _⟩⟩
  | cons t ts ih =>
    intro lb hb hh hlb hc
    have hts : ts.Chain' (· < ·) := (List.chain'_cons'.mp hc).2
    have hhead : ∀ y ∈ ts.head?, t < y := (List.chain'_cons'.mp hc).1
    refine List.chain'_cons.mpr ⟨le_of_lt (hh t (by simp)), ?_⟩
    exact ih t (fun x hx => hb x (List.mem_cons.mpr (Or.inr hx))) hhead
      (le_trans (hb t (List.mem_cons_self t ts)) (by norm_num)) hts

/-- C8: on every successful parse, the progress values passed to
`onProgress` are monotonically non-decreasing, every value before the
final one is strictly below 100, and 100 is reported exactly once, as the
last event (after all rows and the color assignment). -/
theorem c8_progress_monotone (content fileName : String) (colorIdx : Nat)
    (hok : isOkE (parseDataFile content fileName colorIdx).1 = true) :
    ((parseDataFile content fileName colorIdx).2.Chain' (· ≤ ·)) ∧
    (parseDataFile content fileName colorIdx).2.getLast? = some 100 ∧
    ((parseDataFile content fileName colorIdx).2.countP (fun q => q == 100)) = 1 ∧
    (∀ q ∈ (parseDataFile content fileName colorIdx).2.dropLast, q < 100) := by
  by_cases h2 : (nonBlankLines content).length < 2
  · rw [parseDataFile_emptyFile content fileName colorIdx h2] at hok
    simp [isOkE] at hok
  by_cases hh : (headerFieldsOf content).length < 2
  · rw [parseDataFile_missingVars content fileName colorIdx h2 hh] at hok
    simp [isOkE] at hok
  by_cases hv : validRowsOf content = []
  · rw [parseDataFile_noValidRows content fileName colorIdx h2 hh hv] at hok
    simp [isOkE] at hok
  rw [parseDataFile_ok content fileName colorIdx h2 hh hv]
  obtain ⟨htrC, htrB, _, _, _⟩ :=
    chunkFold_trace_inv (detectDelim ((nonBlankLines content).headD ""))
      (headersOf content) ((nonBlankLines content).length - 1)
      (toChunks ((nonBlankLines content).drop 1)) ⟨parseSt0 content, 0, 5, []⟩
      (by simp) (by simp) (by simp) (by norm_num) (by norm_num)
  have htrC' : (chunkFoldOf content).trace.Chain' (· < ·) := htrC
  have htrB' : ∀ x ∈ (chunkFoldOf content).trace, 5 < x ∧ x ≤ 95 := htrB
  have hassoc : (([2, 5] ++ (chunkFoldOf content).trace ++ [98]) ++ [100] : List ℚ) =
      2 :: 5 :: ((chunkFoldOf content).trace ++ [98, 100]) := by
    simp
  refine ⟨?_, ?_, ?_, ?_⟩
  · rw [hassoc]
    refine List.chain'_cons.mpr ⟨by norm_num, ?_⟩
    exact chain_le_trace (chunkFoldOf content).trace 5
      (fun x hx => (htrB' x hx).2)
      (fun y hy => (htrB' y (List.mem_of_mem_head? hy)).1)
      (by norm_num) htrC'
  · rw [List.getLast?_append]
    simp
  · rw [List.countP_append, List.countP_append, List.countP_append]
    have hc1 : List.countP (fun q => q == (100 : ℚ)) [2, 5] = 0 := by decide
    have hc2 : List.countP (fun q => q == (100 : ℚ)) [98] = 0 := by decide
    have hc3 : List.countP (fun q => q == (100 : ℚ)) [100] = 1 := by decide
    have hc4 : List.countP (fun q => q == (100 : ℚ)) (chunkFoldOf content).trace = 0 := by
      rw [List.countP_eq_zero]
      intro x hx
      have hle := (htrB' x hx).2
      simp only [beq_iff_eq]
      intro hcc
      rw [hcc] at hle
      norm_num at hle
    rw [hc1, hc2, hc3, hc4]
  · rw [List.dropLast_concat]
    intro q hq
    rcases List.mem_append.mp hq with hq1 | hq2
    · rcases List.mem_cons.mp hq1 with rfl | hq5
      · norm_num
      · rcases List.mem_cons.mp hq5 with rfl | hq6
        · norm_num
        · have hle := (htrB' q hq6).2
          linarith
    · simp only [List.mem_singleton] at hq2
      subst hq2
      norm_num

theorem c8_progress_witness :
    List.Chain' (· ≤ ·) (parseDataFile "ts,A\n05/03/2024 14.30,1" "f" 0).2 ∧
    (parseDataFile "ts,A\n05/03/2024 14.30,1" "f" 0).2.getLast? = some 100 :=
  ⟨(c8_progress_monotone "ts,A\n05/03/2024 14.30,1" "f" 0 (by decide)).1,
   (c8_progress_monotone "ts,A\n05/03/2024 14.30,1" "f" 0 (by decide)).2.1⟩

/-- A count-preservation form of `List.filter` used for the selected-keys
sequence. -/
theorem count_filter_eq (l : List String) (p : String → Bool) (k : String) :
    (l.filter p).count k = if p k then l.count k else 0 := by
  induction l with
  | nil => by_cases hp : p k <;> simp [hp]
  | cons a tl ih =>
    by_cases hak : a = k
    · subst hak
      by_cases hp : p a <;> simp [List.filter_cons, hp, List.count_cons, ih]
    · have hbe : (a == k) = false := by simp [hak]
      by_cases hp : p a <;> simp [List.filter_cons, hp, List.count_cons, hbe, ih]

/-- A session with dataset identifiers `log` and `log_2`, where one
identifier is a string-prefix of the other. -/
def prefixSession : SessionState :=
  ⟨[("log", ⟨"log", ["x"], [("x", [])], 0, [("x", "#3B82F6")]⟩),
    ("log_2", ⟨"log_2", ["x"], [("x", [])], 0, [("x", "#EF4444")]⟩)],
   [("log_x", ⟨true, "x", "#3B82F6", none, none⟩),
    ("log_2_x", ⟨true, "x", "#EF4444", none, none⟩)],
   ["log_x", "log_2_x"]⟩

/-- C6 counterexample: removing dataset `log` also deletes the config and
selection of key `log_2_x`, which was derived from the still-registered
dataset `log_2` — the deletion is not exact when one identifier is a
prefix of the other. -/
theorem c6_prefix_cex :
    getR prefixSession.variableConfigs "log_2_x" =
      some ⟨true, "x", "#EF4444", none, none⟩ ∧
    (getR (removeDataset prefixSession "log").datasets "log_2").isSome = true ∧
    getR (removeDataset prefixSession "log").variableConfigs "log_2_x" = none ∧
    "log_2_x" ∉ (removeDataset prefixSession "log").selectedVariables :=
  ⟨by decide, by decide, by decide, by decide⟩

/-- C6 (amended): `removeDataset(sourceId)` deletes that dataset entry and
leaves every other dataset entry unchanged; it deletes exactly the
variable configs and selected keys whose key starts with
`sourceId + '_'` — including, when another registered identifier extends
`sourceId` (e.g. `log` vs `log_2`), keys derived from that other
dataset. -/
theorem c6_removeDataset_frame (st : SessionState) (fileName : String) :
    getR (removeDataset st fileName).datasets fileName = none ∧
    (∀ k, k ≠ fileName →
      getR (removeDataset st fileName).datasets k = getR st.datasets k) ∧
    (∀ k, strStarts k (fileName ++ "_") = true →
      getR (removeDataset st fileName).variableConfigs k = none) ∧
    (∀ k, strStarts k (fileName ++ "_") = false →
      getR (removeDataset st fileName).variableConfigs k = getR st.variableConfigs k) ∧
    (∀ k, (removeDataset st fileName).selectedVariables.count k =
      if strStarts k (fileName ++ "_") then 0 else st.selectedVariables.count k) := by
  refine ⟨?_, ?_, ?_, ?_, ?_⟩
  · show getR (delR st.datasets fileName) fileName = none
    rw [getR_delR, if_pos rfl]
  · intro k hk
    show getR (delR st.datasets fileName) k = getR st.datasets k
    rw [getR_delR, if_neg hk]
  · intro k hk
    show getR (st.variableConfigs.filter
      (fun p => !(strStarts p.1 (fileName ++ "_")))) k = none
    rw [getR_filter_key st.variableConfigs (fun s => !(strStarts s (fileName ++ "_"))) k]
    rw [hk]
    simp
  · intro k hk
    show getR (st.variableConfigs.filter
      (fun p => !(strStarts p.1 (fileName ++ "_")))) k = getR st.variableConfigs k
    rw [getR_filter_key st.variableConfigs (fun s => !(strStarts s (fileName ++ "_"))) k]
    rw [hk]
    simp
  · intro k
    show (st.selectedVariables.filter
      (fun varId => !(strStarts varId (fileName ++ "_")))).count k = _
    rw [count_filter_eq st.selectedVariables (fun s => !(strStarts s (fileName ++ "_"))) k]
    by_cases hk : strStarts k (fileName ++ "_") <;> simp [hk]

theorem c6_removeDataset_witness :
    getR (removeDataset prefixSession "log").variableConfigs "log_x" = none :=
  (c6_removeDataset_frame prefixSession "log").2.2.1 "log_x" (by decide)

/-- A session holding dataset `data` (from file `data.csv`) whose config
for key `data_A` has been customized by the user, plus an unrelated
config `other_B`. -/
def overwriteSession : SessionState :=
  ⟨[("data", ⟨"data.csv", ["A"], [("A", [])], 0, [("A", "#3B82F6")]⟩)],
   [("data_A", ⟨true, "custom", "#000000", none, none⟩),
    ("other_B", ⟨true, "B", "#111111", none, none⟩)],
   []⟩

/-- The freshly parsed dataset of a re-uploaded `data.csv`. -/
def reuploadDataset : Dataset :=
  ⟨"data.csv", ["A"], [("A", [])], 1, [("A", "#EF4444")]⟩

/-- C7 counterexample: re-registering a like-named file reuses the same
cleaned-file-name key and OVERWRITES the existing config `data_A` with a
fresh default — the claim that existing configs are never overwritten is
false. -/
theorem c7_overwrite_cex :
    getR overwriteSession.variableConfigs "data_A" =
      some ⟨true, "custom", "#000000", none, none⟩ ∧
    getR (registerDataset overwriteSession "data.csv" reuploadDataset).variableConfigs
      "data_A" = some ⟨false, "A", "#EF4444", none, none⟩ ∧
    (⟨true, "custom", "#000000", none, none⟩ : VariableConfig) ≠
      ⟨false, "A", "#EF4444", none, none⟩ :=
  ⟨by decide, by decide, by decide⟩

/-- C7 (amended): registering a parsed dataset stores it under the
cleaned file name and inserts a default config
`{enabled: false, label: variableName, color: colorAssignment[name]}` for
each of its variables, overwriting any existing config whose key
coincides with a newly derived key; every config whose key is not among
the newly derived keys is unchanged, and the selection is untouched.
A re-upload of a like-named file thus reuses the same sourceId,
replacing the dataset entry and its variables' configs. -/
theorem c7_registerDataset_frame (st : SessionState) (fileName : String) (ds : Dataset) :
    (∀ h ∈ ds.headers,
      getR (registerDataset st fileName ds).variableConfigs
        ((getCleanFileName fileName ++ "_") ++ h) =
        some ⟨false, h, (getR ds.colors h).getD "", none, none⟩) ∧
    (∀ k, (∀ h ∈ ds.headers, ((getCleanFileName fileName ++ "_") ++ h) ≠ k) →
      getR (registerDataset st fileName ds).variableConfigs k =
        getR st.variableConfigs k) ∧
    getR (registerDataset st fileName ds).datasets (getCleanFileName fileName) = some ds ∧
    (∀ k, k ≠ getCleanFileName fileName →
      getR (registerDataset st fileName ds).datasets k = getR st.datasets k) ∧
    (registerDataset st fileName ds).selectedVariables = st.selectedVariables := by
  refine ⟨?_, ?_, ?_, ?_, rfl⟩
  · intro h hmem
    show getR (spreadR st.variableConfigs
      (newConfigsFor (getCleanFileName fileName) ds)) _ = _
    exact getR_spreadR_of_some _ st.variableConfigs _ _
      (keysNodup_newConfigsFor (getCleanFileName fileName) ds)
      (getR_newConfigsFor_mem (getCleanFileName fileName) ds h hmem)
  · intro k hk
    show getR (spreadR st.variableConfigs
      (newConfigsFor (getCleanFileName fileName) ds)) k = _
    exact getR_spreadR_of_none _ st.variableConfigs k
      (getR_newConfigsFor_not_derived (getCleanFileName fileName) ds k hk)
  · show getR (setR st.datasets (getCleanFileName fileName) ds) _ = _
    rw [getR_setR, if_pos rfl]
  · intro k hk
    show getR (setR st.datasets (getCleanFileName fileName) ds) k = _
    rw [getR_setR, if_neg hk]

theorem c7_registerDataset_witness :
    getR (registerDataset overwriteSession "data.csv" reuploadDataset).variableConfigs
      "other_B" = getR overwriteSession.variableConfigs "other_B" :=
  (c7_registerDataset_frame overwriteSession "data.csv" reuploadDataset).2.1
    "other_B" (by decide)


/-- The range filter keeps only points with a present value, so its
filter-mapped values are empty exactly when it is. -/
theorem selection_filter_values_nil (points : List DataPoint) (a b : Int) :
    rangeValues points a b = [] ↔
      (points.filter (fun p =>
        decide (a ≤ p.datetime) && decide (p.datetime ≤ b) && p.value.isSome)) = [] := by
  constructor
  · intro hrv
    rcases hfd : points.filter (fun p =>
        decide (a ≤ p.datetime) && decide (p.datetime ≤ b) && p.value.isSome) with _ | ⟨p, rest⟩
    · exact hfd
    · have hp : p ∈ points.filter (fun p =>
          decide (a ≤ p.datetime) && decide (p.datetime ≤ b) && p.value.isSome) := by
        rw [hfd]
        exact List.mem_cons_self p rest
      have hpred := (List.mem_filter.mp hp).2
      simp only [Bool.and_eq_true] at hpred
      rcases hval : p.value with _ | v
      · rw [hval] at hpred
        simp at hpred
      · unfold rangeValues at hrv
        rw [hfd, List.filterMap_cons, hval] at hrv
        simp at hrv
  · intro hfd
    unfold rangeValues
    rw [hfd]
    rfl

/-- C4: the statistics engines filter to non-null values (within the
inclusive `[rangeStart, rangeEnd]` when a selection range is given),
report nothing when no points remain, and otherwise compute min, max,
arithmetic mean (`sum / N`), population variance (`Σ(v - mean)² / N`,
i.e. the square of the standard deviation with divisor N), the median of
the fully sorted values (mean of the two middle values for even N), sum,
count, and range `max - min`. The full-series engine (`calculateStats`)
returns min/max/mean/median/variance/count/range; the range-selection
engine (`calculateSelectionStats`) returns min/max/mean/sum/count over
the filtered values. -/
theorem c4_stats_engine_spec (points : List DataPoint) (a b : Int) :
    (calculateStats points = none ↔ nonNullValues points = []) ∧
    (∀ s : StatsV, calculateStats points = some s →
      s.min ∈ nonNullValues points ∧ (∀ v ∈ nonNullValues points, s.min ≤ v) ∧
      s.max ∈ nonNullValues points ∧ (∀ v ∈ nonNullValues points, v ≤ s.max) ∧
      s.avg = (nonNullValues points).sum / ((nonNullValues points).length : ℚ) ∧
      s.variance = ((nonNullValues points).map (fun v => (v - s.avg) ^ 2)).sum /
        ((nonNullValues points).length : ℚ) ∧
      (∃ sorted : List ℚ, sorted.Perm (nonNullValues points) ∧
        sorted.Pairwise (· ≤ ·) ∧
        s.median = (if (nonNullValues points).length % 2 = 0 then
            (sorted.getD ((nonNullValues points).length / 2 - 1) 0 +
             sorted.getD ((nonNullValues points).length / 2) 0) / 2
          else sorted.getD ((nonNullValues points).length / 2) 0)) ∧
      s.count = (nonNullValues points).length ∧
      s.range = s.max - s.min) ∧
    (calculateSelectionStats points a b = none ↔ rangeValues points a b = []) ∧
    (∀ s : SelStatsV, calculateSelectionStats points a b = some s →
      s.min ∈ rangeValues points a b ∧ (∀ v ∈ rangeValues points a b, s.min ≤ v) ∧
      s.max ∈ rangeValues points a b ∧ (∀ v ∈ rangeValues points a b, v ≤ s.max) ∧
      s.sum = (rangeValues points a b).sum ∧
      s.avg = (rangeValues points a b).sum / ((rangeValues points a b).length : ℚ) ∧
      s.count = (rangeValues points a b).length ∧
      s.startTime = a ∧ s.endTime = b) := by
  refine ⟨?_, ?_, ?_, ?_⟩
  · constructor
    · intro hn
      simp only [calculateStats] at hn
      by_cases he : (points.filterMap (fun d => d.value)).isEmpty
      · exact List.isEmpty_iff.mp he
      · rw [if_neg he] at hn
        exact Option.noConfusion hn
    · intro hn
      have hn2 : List.filterMap (fun d => d.value) points = [] := hn
      simp only [calculateStats]
      rw [if_pos (List.isEmpty_iff.mpr hn2)]
  · intro s hs
    simp only [calculateStats] at hs
    by_cases he : (points.filterMap (fun d => d.value)).isEmpty
    · rw [if_pos he] at hs
      exact Option.noConfusion hs
    · rw [if_neg he] at hs
      have hne : nonNullValues points ≠ [] :=
        fun hc => he (List.isEmpty_iff.mpr hc)
      obtain rfl := (Option.some.inj hs).symm
      refine ⟨jsMinList_mem _ hne, fun v hv => jsMinList_le _ v hv,
        jsMaxList_mem _ hne, fun v hv => jsMaxList_le _ v hv, ?_, ?_, ?_, rfl, rfl⟩
      · have hsum : (nonNullValues points).foldl (· + ·) 0 = (nonNullValues points).sum := by
          rw [foldl_add_sum, zero_add]
        show (nonNullValues points).foldl (· + ·) 0 /
            ((nonNullValues points).length : ℚ) =
          (nonNullValues points).sum / ((nonNullValues points).length : ℚ)
        rw [hsum]
      · have hmap := foldl_add_map
          (fun val => (val - (nonNullValues points).foldl (· + ·) 0 /
            ((nonNullValues points).length : ℚ)) ^ 2) (nonNullValues points) 0
        show (nonNullValues points).foldl
            (fun acc val => acc + (val - (nonNullValues points).foldl (· + ·) 0 /
              ((nonNullValues points).length : ℚ)) ^ 2) 0 /
            ((nonNullValues points).length : ℚ) =
          ((nonNullValues points).map (fun v => (v - (nonNullValues points).foldl (· + ·) 0 /
              ((nonNullValues points).length : ℚ)) ^ 2)).sum /
            ((nonNullValues points).length : ℚ)
        rw [hmap, zero_add]
      · exact ⟨sortAsc (nonNullValues points), sortAsc_perm _, sortAsc_sorted _, rfl⟩
  · constructor
    · intro hn
      simp only [calculateSelectionStats] at hn
      by_cases he : (points.filter (fun p =>
          decide (a ≤ p.datetime) && decide (p.datetime ≤ b) && p.value.isSome)).isEmpty
      · exact (selection_filter_values_nil points a b).mpr (List.isEmpty_iff.mp he)
      · rw [if_neg he] at hn
        exact Option.noConfusion hn
    · intro hn
      simp only [calculateSelectionStats]
      rw [if_pos (List.isEmpty_iff.mpr ((selection_filter_values_nil points a b).mp hn))]
  · intro s hs
    simp only [calculateSelectionStats] at hs
    by_cases he : (points.filter (fun p =>
        decide (a ≤ p.datetime) && decide (p.datetime ≤ b) && p.value.isSome)).isEmpty
    · rw [if_pos he] at hs
      exact Option.noConfusion hs
    · rw [if_neg he] at hs
      have hne : rangeValues points a b ≠ [] := fun hc =>
        he (List.isEmpty_iff.mpr ((selection_filter_values_nil points a b).mp hc))
      obtain rfl := (Option.some.inj hs).symm
      refine ⟨jsMinList_mem _ hne, fun v hv => jsMinList_le _ v hv,
        jsMaxList_mem _ hne, fun v hv => jsMaxList_le _ v hv, ?_, ?_, rfl, rfl, rfl⟩
      · show (rangeValues points a b).foldl (· + ·) 0 = (rangeValues points a b).sum
        rw [foldl_add_sum, zero_add]
      · have hsum : (rangeValues points a b).foldl (· + ·) 0 =
            (rangeValues points a b).sum := by
          rw [foldl_add_sum, zero_add]
        show (rangeValues points a b).foldl (· + ·) 0 /
            ((rangeValues points a b).length : ℚ) =
          (rangeValues points a b).sum / ((rangeValues points a b).length : ℚ)
        rw [hsum]

theorem c4_stats_witness :
    (StatsV.mk 1 5 3 3 2 5 4).avg =
      (nonNullValues [⟨0, some 1⟩, ⟨1, some 2⟩, ⟨2, some 3⟩,
        ⟨3, some 4⟩, ⟨4, some 5⟩, ⟨5, none⟩]).sum /
      ((nonNullValues [⟨0, some 1⟩, ⟨1, some 2⟩, ⟨2, some 3⟩,
        ⟨3, some 4⟩, ⟨4, some 5⟩, ⟨5, none⟩]).length : ℚ) :=
  (((c4_stats_engine_spec [⟨0, some 1⟩, ⟨1, some 2⟩, ⟨2, some 3⟩,
      ⟨3, some 4⟩, ⟨4, some 5⟩, ⟨5, none⟩] 0 0).2.1
    (StatsV.mk 1 5 3 3 2 5 4) (by decide)).2.2.2.2.1)

end LogData
